import Mathlib

/-!
Verification of the maelstrom gossip-glommers nodes: the shared message
substrate (`src/src/lib.rs`), the flood-broadcast node
(`src/src/bin/broadcast.rs`) and the two CRDT nodes
(`src/src/bin/gcounter.rs`, `src/src/bin/gset.rs`).

Hash-based containers (`HashSet<u64>`, `HashMap<String, i64>`,
`HashMap<u64, String>`) carry no observable order in the source; they are
modelled canonically: sets as strictly sorted lists and the counter map as a
key-sorted association list, so that equality of models coincides with
equality of the abstract containers.
-/

namespace Lib

/-- Wire envelope produced by the shared substrate (`src/src/lib.rs`):
`src`, `dest` and a body holding `type`, `msg_id` and optionally
`in_reply_to`.  `build_message` attaches no other body fields. -/
structure Message where
  src : String
  dest : String
  typ : String
  msg_id : Nat
  in_reply_to : Option Nat
deriving DecidableEq

/-- Shared node substrate (`lib.rs` `Node`): identity, cluster membership and
the atomic `msg_id` counter. -/
structure Node where
  node_id : String
  node_ids : List String
  msg_id : Nat
deriving DecidableEq

/-- `Node::build_message` (`lib.rs` 32-46): fetch-and-increment the id counter
and return the bare envelope carrying the fetched id.  The counter is a `u64`
whose `fetch_add` wraps at `2^64`; this definition idealizes it as unbounded
(adequate while the counter cannot overflow) — `Node.build_message_u64` below
is the wrap-exact version used for the id-reuse analysis. -/
def Node.build_message (n : Node) (src dest msg_type : String) : Message × Node :=
  ({ src := src, dest := dest, typ := msg_type, msg_id := n.msg_id, in_reply_to := none },
   { n with msg_id := n.msg_id + 1 })

/-- `Node::build_message` with the `AtomicU64` arithmetic made exact
(`lib.rs` 33): `fetch_add(1, AcqRel)` returns the current counter value and
stores the successor reduced modulo `2^64` — the counter wraps on overflow. -/
def Node.build_message_u64 (n : Node) (src dest msg_type : String) : Message × Node :=
  ({ src := src, dest := dest, typ := msg_type, msg_id := n.msg_id, in_reply_to := none },
   { n with msg_id := (n.msg_id + 1) % 2 ^ 64 })

/-- `Node::build_response` (`lib.rs` 48-65): panics (modelled as `none`) when
the node is uninitialized (`node_id` empty); otherwise builds a message from
`self.node_id` to the request's `src` and sets `in_reply_to` to the request's
`msg_id`. -/
def Node.build_response (n : Node) (request : Message) (msg_type : String) :
    Option (Message × Node) :=
  if n.node_id = "" then none
  else
    let p := n.build_message n.node_id request.src msg_type
    some ({ p.1 with in_reply_to := some request.msg_id }, p.2)

/-- `Node::build_response` (`lib.rs` 48-65) over the wrap-exact `u64`
counter of `Node.build_message_u64`. -/
def Node.build_response_u64 (n : Node) (request : Message) (msg_type : String) :
    Option (Message × Node) :=
  if n.node_id = "" then none
  else
    let p := n.build_message_u64 n.node_id request.src msg_type
    some ({ p.1 with in_reply_to := some request.msg_id }, p.2)

/-- A single substrate call: `build_message` with explicit addressing or
`build_response` against a request.  Each successful call allocates exactly
one message id. -/
inductive Call where
  | msg (src dest msg_type : String)
  | resp (request : Message) (msg_type : String)
deriving DecidableEq

/-- Run a sequence of substrate calls on one node under the wrap-exact `u64`
counter, collecting the returned messages in call order.  A `build_response`
panic aborts the run (`none`). -/
def run (n : Node) : List Call → Option (List Message × Node)
  | [] => some ([], n)
  | Call.msg s d t :: cs =>
    (run (n.build_message_u64 s d t).2 cs).map
      (fun r => ((n.build_message_u64 s d t).1 :: r.1, r.2))
  | Call.resp req t :: cs =>
    match n.build_response_u64 req t with
    | none => none
    | some p => (run p.2 cs).map (fun r => (p.1 :: r.1, r.2))

theorem run_ids {n : Node} {cs : List Call} {ms : List Message} {n' : Node}
    (h : run n cs = some (ms, n')) (hb : n.msg_id + cs.length ≤ 2 ^ 64) :
    (ms.map Message.msg_id).Pairwise (· < ·) ∧
      ∀ i ∈ ms.map Message.msg_id, n.msg_id ≤ i := by
  induction cs generalizing n ms n' with
  | nil =>
    simp only [run, Option.some.injEq, Prod.mk.injEq] at h
    rcases h with ⟨h1, _⟩
    subst h1
    simp
  | cons c cs ih =>
    cases c with
    | msg s d t =>
      simp only [run, Option.map_eq_some'] at h
      obtain ⟨r, hr, hrr⟩ := h
      have hms : ms = (n.build_message_u64 s d t).1 :: r.1 := by
        have := congrArg Prod.fst hrr
        simpa using this.symm
      rcases Nat.lt_or_ge (n.msg_id + 1) (2 ^ 64) with hlt | hge
      · have hmod : (n.msg_id + 1) % 2 ^ 64 = n.msg_id + 1 := Nat.mod_eq_of_lt hlt
        have hb2 : (n.build_message_u64 s d t).2.msg_id + cs.length ≤ 2 ^ 64 := by
          simp only [Node.build_message_u64, hmod]
          simp only [List.length_cons] at hb
          omega
        obtain ⟨ih1, ih2⟩ := ih hr hb2
        subst hms
        simp only [List.map_cons]
        refine ⟨List.Pairwise.cons ?_ ih1, ?_⟩
        · intro b hbm
          have := ih2 b hbm
          simp only [Node.build_message_u64, hmod] at this ⊢
          omega
        · intro i hi
          rcases List.mem_cons.mp hi with rfl | hi
          · simp [Node.build_message_u64]
          · have := ih2 i hi
            simp only [Node.build_message_u64, hmod] at this
            omega
      · have hlen : cs = [] := by
          have : cs.length = 0 := by
            simp only [List.length_cons] at hb
            omega
          exact List.length_eq_zero.mp this
        subst hlen
        simp only [run, Option.some.injEq] at hr
        subst hr
        subst hms
        simp [Node.build_message_u64]
    | resp req t =>
      simp only [run, Node.build_response_u64] at h
      by_cases hid : n.node_id = ""
      · simp [hid] at h
      · simp only [hid, if_false, Option.map_eq_some'] at h
        obtain ⟨r, hr, hrr⟩ := h
        have hms : ms = { (n.build_message_u64 n.node_id req.src t).1 with
            in_reply_to := some req.msg_id } :: r.1 := by
          have := congrArg Prod.fst hrr
          simpa using this.symm
        rcases Nat.lt_or_ge (n.msg_id + 1) (2 ^ 64) with hlt | hge
        · have hmod : (n.msg_id + 1) % 2 ^ 64 = n.msg_id + 1 := Nat.mod_eq_of_lt hlt
          have hb2 : (n.build_message_u64 n.node_id req.src t).2.msg_id + cs.length ≤ 2 ^ 64 := by
            simp only [Node.build_message_u64, hmod]
            simp only [List.length_cons] at hb
            omega
          obtain ⟨ih1, ih2⟩ := ih hr hb2
          subst hms
          simp only [List.map_cons]
          refine ⟨List.Pairwise.cons ?_ ih1, ?_⟩
          · intro b hbm
            have := ih2 b hbm
            simp only [Node.build_message_u64, hmod] at this ⊢
            omega
          · intro i hi
            rcases List.mem_cons.mp hi with rfl | hi
            · simp [Node.build_message_u64]
            · have := ih2 i hi
              simp only [Node.build_message_u64, hmod] at this
              omega
        · have hlen : cs = [] := by
            have : cs.length = 0 := by
              simp only [List.length_cons] at hb
              omega
            exact List.length_eq_zero.mp this
          subst hlen
          simp only [run, Option.some.injEq] at hr
          subst hr
          subst hms
          simp [Node.build_message_u64]

/-- The message ids handed out by a run, `[]` if the run panics. -/
def runIds (n : Node) (cs : List Call) : List Nat :=
  match run n cs with
  | none => []
  | some r => r.1.map Message.msg_id

theorem run_replicate (k : Nat) : ∀ (n : Node) (s d t : String),
    n.msg_id < 2 ^ 64 →
    run n (List.replicate k (Call.msg s d t)) = some
      ((List.range k).map (fun i => Message.mk s d t ((n.msg_id + i) % 2 ^ 64) none),
       { n with msg_id := (n.msg_id + k) % 2 ^ 64 }) := by
  induction k with
  | zero =>
    intro n s d t hlt
    show some ([], n) = _
    rw [Nat.add_zero, Nat.mod_eq_of_lt hlt]
    rfl
  | succ k ih =>
    intro n s d t hlt
    have hstep : ∀ j : Nat,
        ((n.msg_id + 1) % 2 ^ 64 + j) % 2 ^ 64 = (n.msg_id + (j + 1)) % 2 ^ 64 := by
      intro j
      rw [Nat.mod_add_mod]
      congr 1
      omega
    rw [List.replicate_succ]
    simp only [run]
    rw [ih (n.build_message_u64 s d t).2 s d t
      (by simp only [Node.build_message_u64]; exact Nat.mod_lt _ (by positivity))]
    simp only [Option.map_some', Node.build_message_u64, hstep]
    rw [List.range_succ_eq_map, List.map_cons, List.map_map]
    simp only [Function.comp, Nat.add_zero, Nat.mod_eq_of_lt hlt, hstep]
    rfl

theorem runIds_replicate (k : Nat) (n : Node) (s d t : String) (hlt : n.msg_id < 2 ^ 64) :
    runIds n (List.replicate k (Call.msg s d t)) =
      (List.range k).map (fun i => (n.msg_id + i) % 2 ^ 64) := by
  unfold runIds
  rw [run_replicate k n s d t hlt]
  simp [List.map_map, Function.comp]

end Lib

namespace GSet

/-- Canonical model of `HashSet<u64>`: a strictly sorted list of its elements. -/
abbrev SortedSet (l : List Nat) : Prop := l.Pairwise (· < ·)

/-- Sorted insertion: set-level model of `HashSet::insert`. -/
def sInsert (v : Nat) : List Nat → List Nat
  | [] => [v]
  | h :: t => if v < h then v :: h :: t else if v = h then h :: t else h :: sInsert v t

theorem mem_sInsert (x v : Nat) (l : List Nat) : x ∈ sInsert v l ↔ x = v ∨ x ∈ l := by
  induction l with
  | nil => simp [sInsert]
  | cons h t ih =>
    simp only [sInsert]
    split
    · simp only [List.mem_cons] <;> tauto
    · split
      · rename_i h1 h2
        subst h2
        simp only [List.mem_cons] <;> tauto
      · simp only [List.mem_cons, ih] <;> tauto

theorem sortedSet_sInsert {v : Nat} {l : List Nat} (hs : SortedSet l) :
    SortedSet (sInsert v l) := by
  induction l with
  | nil => simp [sInsert, SortedSet]
  | cons h t ih =>
    rcases List.pairwise_cons.mp hs with ⟨hh, ht⟩
    simp only [sInsert]
    by_cases h1 : v < h
    · rw [if_pos h1]
      refine List.Pairwise.cons ?_ hs
      intro b hb
      rcases List.mem_cons.mp hb with rfl | hb
      · exact h1
      · exact lt_trans h1 (hh b hb)
    · by_cases h2 : v = h
      · rw [if_neg h1, if_pos h2]
        exact hs
      · rw [if_neg h1, if_neg h2]
        refine List.Pairwise.cons ?_ (ih ht)
        intro b hb
        rcases (mem_sInsert b v t).mp hb with rfl | hb
        · omega
        · exact hh b hb

theorem sInsert_eq_of_mem {v : Nat} {l : List Nat} (hs : SortedSet l) (hv : v ∈ l) :
    sInsert v l = l := by
  induction l with
  | nil => simp at hv
  | cons h t ih =>
    rcases List.pairwise_cons.mp hs with ⟨hh, ht⟩
    rcases List.mem_cons.mp hv with rfl | hv
    · simp [sInsert]
    · have hlt : h < v := hh v hv
      have h1 : ¬ v < h := by omega
      have h2 : ¬ v = h := by omega
      simp [sInsert, h1, h2, ih ht hv]

theorem sortedSet_ext {l1 : List Nat} : ∀ {l2 : List Nat}, SortedSet l1 → SortedSet l2 →
    (∀ x, x ∈ l1 ↔ x ∈ l2) → l1 = l2 := by
  induction l1 with
  | nil =>
    intro l2 _ _ hmem
    cases l2 with
    | nil => rfl
    | cons b t2 => exact absurd ((hmem b).mpr (List.mem_cons_self b t2)) (by simp)
  | cons a t1 ih =>
    intro l2 hs1 hs2 hmem
    cases l2 with
    | nil => exact absurd ((hmem a).mp (List.mem_cons_self a t1)) (by simp)
    | cons b t2 =>
      rcases List.pairwise_cons.mp hs1 with ⟨ha, ht1⟩
      rcases List.pairwise_cons.mp hs2 with ⟨hb, ht2⟩
      have hab : a = b := by
        have h1 : a ∈ b :: t2 := (hmem a).mp (List.mem_cons_self a t1)
        have h2 : b ∈ a :: t1 := (hmem b).mpr (List.mem_cons_self b t2)
        rcases List.mem_cons.mp h1 with h1 | h1
        · exact h1
        · rcases List.mem_cons.mp h2 with h2 | h2
          · exact h2.symm
          · have := hb a h1
            have := ha b h2
            omega
      subst hab
      have htails : t1 = t2 := by
        apply ih ht1 ht2
        intro x
        constructor
        · intro hx
          have hax : a < x := ha x hx
          rcases List.mem_cons.mp ((hmem x).mp (List.mem_cons_of_mem a hx)) with rfl | h
          · omega
          · exact h
        · intro hx
          have hax : a < x := hb x hx
          rcases List.mem_cons.mp ((hmem x).mpr (List.mem_cons_of_mem a hx)) with rfl | h
          · omega
          · exact h
      rw [htails]

/-- G-Set node (`src/src/bin/gset.rs` `Node`): the shared substrate plus the
element set. -/
structure Node where
  inner : Lib.Node
  messages : List Nat
deriving DecidableEq

/-- `Node::new` (`gset.rs` 16-18): empty set. -/
def Node.new (inner : Lib.Node) : Node := { inner := inner, messages := [] }

/-- `Node::handle_add` (`gset.rs` 20-30): build and send `add_ok`, then insert
the element into the local set. -/
def Node.handle_add (n : Node) (reqSrc : String) (reqMsgId : Nat) (element : Nat) :
    Option (Node × Lib.Message) :=
  match n.inner.build_response ⟨reqSrc, n.inner.node_id, "add", reqMsgId, none⟩ "add_ok" with
  | none => none
  | some p => some ({ inner := p.2, messages := sInsert element n.messages }, p.1)

/-- `Node::handle_read` (`gset.rs` 32-37): respond `read_ok` carrying the full
local set as the `value` payload (returned as the third component). -/
def Node.handle_read (n : Node) (reqSrc : String) (reqMsgId : Nat) :
    Option (Node × Lib.Message × List Nat) :=
  match n.inner.build_response ⟨reqSrc, n.inner.node_id, "read", reqMsgId, none⟩ "read_ok" with
  | none => none
  | some p => some ({ n with inner := p.2 }, p.1, n.messages)

/-- `Node::handle_replicate` (`gset.rs` 39-44): extend the local set with every
element of the received snapshot (set union). -/
def Node.handle_replicate (n : Node) (value : List Nat) : Node :=
  { n with messages := value.foldl (fun s v => sInsert v s) n.messages }

/-- Deliver a list of `replicate` snapshots in order. -/
def applyReplicates (n : Node) (snaps : List (List Nat)) : Node :=
  snaps.foldl Node.handle_replicate n

theorem mem_extend (x : Nat) (value : List Nat) :
    ∀ s, x ∈ value.foldl (fun s v => sInsert v s) s ↔ x ∈ s ∨ x ∈ value := by
  induction value with
  | nil => simp
  | cons v t ih =>
    intro s
    simp only [List.foldl_cons, ih, mem_sInsert, List.mem_cons]
    tauto

theorem sortedSet_extend (value : List Nat) :
    ∀ {s}, SortedSet s → SortedSet (value.foldl (fun s v => sInsert v s) s) := by
  induction value with
  | nil => intro s hs; exact hs
  | cons v t ih =>
    intro s hs
    exact ih (sortedSet_sInsert hs)

theorem handle_replicate_mem (x : Nat) (n : Node) (value : List Nat) :
    x ∈ (n.handle_replicate value).messages ↔ x ∈ n.messages ∨ x ∈ value :=
  mem_extend x value n.messages

theorem handle_replicate_inner (n : Node) (value : List Nat) :
    (n.handle_replicate value).inner = n.inner := rfl

theorem applyReplicates_inner (snaps : List (List Nat)) :
    ∀ n, (applyReplicates n snaps).inner = n.inner := by
  induction snaps with
  | nil => intro n; rfl
  | cons s t ih => intro n; exact ih _

theorem applyReplicates_mem (x : Nat) (snaps : List (List Nat)) :
    ∀ n, x ∈ (applyReplicates n snaps).messages ↔
      x ∈ n.messages ∨ ∃ s ∈ snaps, x ∈ s := by
  induction snaps with
  | nil => intro n; simp [applyReplicates]
  | cons s t ih =>
    intro n
    simp only [applyReplicates, List.foldl_cons] at ih ⊢
    rw [ih, handle_replicate_mem]
    simp only [List.mem_cons]
    constructor
    · rintro ((h | h) | ⟨w, hw, hxw⟩)
      · exact Or.inl h
      · exact Or.inr ⟨s, Or.inl rfl, h⟩
      · exact Or.inr ⟨w, Or.inr hw, hxw⟩
    · rintro (h | ⟨w, (rfl | hw), hxw⟩)
      · exact Or.inl (Or.inl h)
      · exact Or.inl (Or.inr hxw)
      · exact Or.inr ⟨w, hw, hxw⟩

theorem sortedSet_applyReplicates (snaps : List (List Nat)) :
    ∀ {n : Node}, SortedSet n.messages → SortedSet (applyReplicates n snaps).messages := by
  induction snaps with
  | nil => intro n hs; exact hs
  | cons s t ih =>
    intro n hs
    exact ih (sortedSet_extend s hs)

end GSet

namespace GCounter

/-- Computable strict ordering on character lists (lexicographic on character
codes), used only to keep the canonical counter map sorted. -/
def keyLtb : List Char → List Char → Bool
  | [], [] => false
  | [], _ :: _ => true
  | _ :: _, [] => false
  | a :: as, b :: bs =>
    if a.toNat < b.toNat then true
    else if b.toNat < a.toNat then false
    else keyLtb as bs

/-- The induced strict ordering on keys of the counter map. -/
def keyLt (a b : String) : Prop := keyLtb a.data b.data = true

instance (a b : String) : Decidable (keyLt a b) :=
  inferInstanceAs (Decidable (keyLtb a.data b.data = true))

theorem keyLtb_irrefl : ∀ (l : List Char), keyLtb l l = false := by
  intro l
  induction l with
  | nil => rfl
  | cons c t ih => simp [keyLtb, Nat.lt_irrefl, ih]

theorem keyLt_irrefl (a : String) : ¬ keyLt a a := by
  unfold keyLt
  rw [keyLtb_irrefl]
  simp

theorem keyLtb_trans : ∀ (l1 l2 l3 : List Char), keyLtb l1 l2 = true →
    keyLtb l2 l3 = true → keyLtb l1 l3 = true := by
  intro l1
  induction l1 with
  | nil =>
    intro l2 l3 h12 h23
    cases l3 with
    | nil => cases l2 <;> simp [keyLtb] at h23
    | cons c t => simp [keyLtb]
  | cons a as ih =>
    intro l2 l3 h12 h23
    cases l2 with
    | nil => simp [keyLtb] at h12
    | cons b bs =>
      cases l3 with
      | nil => simp [keyLtb] at h23
      | cons c cs =>
        simp only [keyLtb] at h12 h23 ⊢
        by_cases hab : a.toNat < b.toNat
        · by_cases hbc : b.toNat < c.toNat
          · have hac : a.toNat < c.toNat := by omega
            simp [hac]
          · by_cases hcb : c.toNat < b.toNat
            · simp [hbc, hcb] at h23
            · have hac : a.toNat < c.toNat := by omega
              simp [hac]
        · by_cases hba : b.toNat < a.toNat
          · simp [hab, hba] at h12
          · simp only [hab, hba, if_false] at h12
            by_cases hbc : b.toNat < c.toNat
            · have hac : a.toNat < c.toNat := by omega
              simp [hac]
            · by_cases hcb : c.toNat < b.toNat
              · simp [hbc, hcb] at h23
              · simp only [hbc, hcb, if_false] at h23
                have hac : ¬ a.toNat < c.toNat := by omega
                have hca : ¬ c.toNat < a.toNat := by omega
                simp only [hac, hca, if_false]
                exact ih bs cs h12 h23

theorem keyLt_trans {a b c : String} (h1 : keyLt a b) (h2 : keyLt b c) : keyLt a c :=
  keyLtb_trans a.data b.data c.data h1 h2

theorem keyLtb_total : ∀ (l1 l2 : List Char), keyLtb l1 l2 = false →
    keyLtb l2 l1 = false → l1 = l2 := by
  intro l1
  induction l1 with
  | nil =>
    intro l2 h12 _
    cases l2 with
    | nil => rfl
    | cons c t => simp [keyLtb] at h12
  | cons a as ih =>
    intro l2 h12 h21
    cases l2 with
    | nil => simp [keyLtb] at h21
    | cons b bs =>
      simp only [keyLtb] at h12 h21
      by_cases hab : a.toNat < b.toNat
      · simp [hab] at h12
      · by_cases hba : b.toNat < a.toNat
        · simp [hab, hba] at h21
        · simp only [hab, hba, if_false] at h12 h21
          have heq : a.toNat = b.toNat := by omega
          have hc : a = b := Char.ext (UInt32.ext heq)
          rw [hc, ih bs h12 h21]

theorem keyLt_of_not_of_ne {a b : String} (h1 : ¬ keyLt a b) (h2 : ¬ a = b) :
    keyLt b a := by
  by_cases e : keyLtb b.data a.data = true
  · exact e
  · exfalso
    apply h2
    have h1' : keyLtb a.data b.data = false := by
      cases e2 : keyLtb a.data b.data
      · rfl
      · exact absurd e2 h1
    have e' : keyLtb b.data a.data = false := by
      cases e2 : keyLtb b.data a.data
      · rfl
      · exact absurd e2 e
    have hd := keyLtb_total a.data b.data h1' e'
    cases a
    cases b
    simp only at hd
    rw [hd]

/-- Canonical model of `HashMap<String, i64>`: an association list strictly
sorted by key. -/
abbrev SortedMap (l : List (String × Int)) : Prop := l.Pairwise (fun a b => keyLt a.1 b.1)

/-- Map lookup (`HashMap::get` / entry inspection). -/
def gcLookup : List (String × Int) → String → Option Int
  | [], _ => none
  | kv :: t, k => if kv.1 = k then some kv.2 else gcLookup t k

/-- Sorted insert-or-replace (`HashMap` entry insertion). -/
def gcInsert (k : String) (v : Int) : List (String × Int) → List (String × Int)
  | [] => [(k, v)]
  | kv :: t =>
    if keyLt k kv.1 then (k, v) :: kv :: t
    else if k = kv.1 then (k, v) :: t
    else kv :: gcInsert k v t

theorem gcLookup_gcInsert (k : String) (v : Int) (l : List (String × Int)) (q : String) :
    gcLookup (gcInsert k v l) q = if q = k then some v else gcLookup l q := by
  induction l with
  | nil =>
    simp only [gcInsert, gcLookup]
    by_cases hq : k = q
    · subst hq; simp
    · have hq' : ¬ q = k := fun h => hq h.symm
      rw [if_neg hq, if_neg hq']
  | cons kv t ih =>
    simp only [gcInsert]
    by_cases h1 : keyLt k kv.1
    · rw [if_pos h1]
      by_cases hq : k = q
      · subst hq
        simp [gcLookup]
      · have hq' : ¬ q = k := fun h => hq h.symm
        simp [gcLookup, hq, hq']
    · by_cases h2 : k = kv.1
      · rw [if_neg h1, if_pos h2]
        by_cases hq : k = q
        · subst hq
          simp [gcLookup, h2.symm]
        · have hq' : ¬ q = k := fun h => hq h.symm
          have hkv : ¬ kv.1 = q := fun h => hq (h2.trans h)
          simp [gcLookup, hq, hq', hkv]
      · rw [if_neg h1, if_neg h2]
        by_cases hq : kv.1 = q
        · have hqk : ¬ q = k := fun h => h2 ((hq.trans h).symm)
          simp [gcLookup, hq, hqk]
        · simp [gcLookup, hq, ih]

theorem mem_gcInsert {p : String × Int} {k : String} {v : Int} :
    ∀ {l : List (String × Int)}, p ∈ gcInsert k v l → p = (k, v) ∨ p ∈ l := by
  intro l
  induction l with
  | nil => simp [gcInsert]
  | cons kv t ih =>
    simp only [gcInsert]
    split
    · simp only [List.mem_cons]
      tauto
    · split
      · simp only [List.mem_cons]
        tauto
      · simp only [List.mem_cons]
        rintro (rfl | hp)
        · tauto
        · rcases ih hp with rfl | hp <;> tauto

theorem sortedMap_gcInsert {k : String} {v : Int} {l : List (String × Int)}
    (hs : SortedMap l) : SortedMap (gcInsert k v l) := by
  induction l with
  | nil => simp [gcInsert, SortedMap]
  | cons kv t ih =>
    rcases List.pairwise_cons.mp hs with ⟨hh, ht⟩
    simp only [gcInsert]
    by_cases h1 : keyLt k kv.1
    · rw [if_pos h1]
      refine List.Pairwise.cons ?_ hs
      intro b hb
      rcases List.mem_cons.mp hb with rfl | hb
      · exact h1
      · exact keyLt_trans h1 (hh b hb)
    · by_cases h2 : k = kv.1
      · rw [if_neg h1, if_pos h2]
        refine List.Pairwise.cons ?_ ht
        intro b hb
        exact h2 ▸ hh b hb
      · rw [if_neg h1, if_neg h2]
        have hlt : keyLt kv.1 k := keyLt_of_not_of_ne h1 h2
        refine List.Pairwise.cons ?_ (ih ht)
        intro b hb
        rcases mem_gcInsert hb with rfl | hb
        · exact hlt
        · exact hh b hb

theorem gcLookup_eq_none_of_forall_lt {k : String} : ∀ {t : List (String × Int)},
    (∀ c ∈ t, keyLt k c.1) → gcLookup t k = none := by
  intro t
  induction t with
  | nil => intro _; rfl
  | cons b t2 ih =>
    intro hh
    have hb : keyLt k b.1 := hh b (List.mem_cons_self b t2)
    simp only [gcLookup, if_neg (fun h : b.1 = k => absurd (h ▸ hb) (keyLt_irrefl _))]
    exact ih (fun c hc => hh c (List.mem_cons_of_mem b hc))

theorem gcLookup_head_tail_none {kv : String × Int} {t : List (String × Int)}
    (hs : SortedMap (kv :: t)) : gcLookup t kv.1 = none :=
  gcLookup_eq_none_of_forall_lt (List.pairwise_cons.mp hs).1

theorem mem_keys_of_gcLookup {l : List (String × Int)} {k : String} {v : Int}
    (h : gcLookup l k = some v) : ∃ w, (k, w) ∈ l := by
  induction l with
  | nil => simp [gcLookup] at h
  | cons kv t ih =>
    simp only [gcLookup] at h
    by_cases hk : kv.1 = k
    · exact ⟨kv.2, by rw [← hk]; exact List.mem_cons_self kv t⟩
    · rw [if_neg hk] at h
      rcases ih h with ⟨w, hw⟩
      exact ⟨w, List.mem_cons_of_mem kv hw⟩

theorem sortedMap_ext {l1 : List (String × Int)} : ∀ {l2 : List (String × Int)},
    SortedMap l1 → SortedMap l2 → (∀ k, gcLookup l1 k = gcLookup l2 k) → l1 = l2 := by
  induction l1 with
  | nil =>
    intro l2 _ _ hmem
    cases l2 with
    | nil => rfl
    | cons b t2 =>
      have := hmem b.1
      simp [gcLookup] at this
  | cons a t1 ih =>
    intro l2 hs1 hs2 hmem
    cases l2 with
    | nil =>
      have := hmem a.1
      simp [gcLookup] at this
    | cons b t2 =>
      rcases List.pairwise_cons.mp hs1 with ⟨ha, ht1⟩
      rcases List.pairwise_cons.mp hs2 with ⟨hb, ht2⟩
      have hla : gcLookup (a :: t1) a.1 = some a.2 := by simp [gcLookup]
      have hlb : gcLookup (b :: t2) b.1 = some b.2 := by simp [gcLookup]
      have hkey : a.1 = b.1 := by
        rcases mem_keys_of_gcLookup ((hmem a.1).symm ▸ hla) with ⟨w, hw⟩
        rcases mem_keys_of_gcLookup ((hmem b.1) ▸ hlb) with ⟨w', hw'⟩
        rcases List.mem_cons.mp hw with heq | hw
        · simpa using congrArg Prod.fst heq
        · rcases List.mem_cons.mp hw' with heq' | hw'
          · simpa using (congrArg Prod.fst heq').symm
          · have h1 : keyLt b.1 a.1 := by simpa using hb (a.1, w) hw
            have h2 : keyLt a.1 b.1 := by simpa using ha (b.1, w') hw'
            exact absurd (keyLt_trans h1 h2) (keyLt_irrefl _)
      have hval : a.2 = b.2 := by
        have h := hmem a.1
        rw [hla] at h
        rw [(by simp only [gcLookup, if_pos hkey.symm] :
          gcLookup (b :: t2) a.1 = some b.2)] at h
        exact Option.some_inj.mp h
      have htails : t1 = t2 := by
        apply ih ht1 ht2
        intro k
        by_cases hk : k = a.1
        · subst hk
          rw [gcLookup_head_tail_none hs1, hkey, gcLookup_head_tail_none hs2]
        · have h1 := hmem k
          have hna : ¬ a.1 = k := fun h => hk h.symm
          have hnb : ¬ b.1 = k := fun h => hk ((hkey.trans h).symm)
          simp only [gcLookup, if_neg hna, if_neg hnb] at h1
          exact h1
      have hab : a = b := Prod.ext hkey hval
      rw [hab, htails]

/-- One step of a running maximum over optional values. -/
def omax1 (a : Option Int) (v : Int) : Option Int :=
  match a with
  | none => some v
  | some c => some (max c v)

/-- Running maximum of a list folded onto an optional starting value; used to
characterize what max-merging does to one key. -/
def omaxL (a : Option Int) (vs : List Int) : Option Int := vs.foldl omax1 a

theorem omaxL_nil (a : Option Int) : omaxL a [] = a := rfl

theorem omaxL_cons (a : Option Int) (v : Int) (vs : List Int) :
    omaxL a (v :: vs) = omaxL (omax1 a v) vs := rfl

theorem omaxL_append (a : Option Int) (xs ys : List Int) :
    omaxL a (xs ++ ys) = omaxL (omaxL a xs) ys := by
  simp [omaxL, List.foldl_append]

theorem omaxL_spec : ∀ (vs : List Int) (a : Option Int) (m : Int), omaxL a vs = some m →
    (a = some m ∨ m ∈ vs) ∧ (∀ x ∈ vs, x ≤ m) ∧ (∀ c, a = some c → c ≤ m) := by
  intro vs
  induction vs with
  | nil =>
    intro a m h
    rw [omaxL_nil] at h
    exact ⟨Or.inl h, by simp, fun c hc => by rw [h] at hc; simp at hc; omega⟩
  | cons v t ih =>
    intro a m h
    rw [omaxL_cons] at h
    obtain ⟨h1, h2, h3⟩ := ih (omax1 a v) m h
    have hvm : v ≤ m := by
      cases a with
      | none => exact h3 v rfl
      | some c =>
        have := h3 (max c v) (by simp [omax1])
        exact le_trans (le_max_right c v) this
    refine ⟨?_, ?_, ?_⟩
    · rcases h1 with h1 | h1
      · cases a with
        | none =>
          simp only [omax1] at h1
          exact Or.inr (by simp at h1; simp [h1])
        | some c =>
          simp only [omax1, Option.some_inj] at h1
          rcases max_choice c v with hm | hm
          · exact Or.inl (by rw [hm] at h1; rw [h1])
          · exact Or.inr (by rw [hm] at h1; simp [h1])
      · exact Or.inr (List.mem_cons_of_mem v h1)
    · intro x hx
      rcases List.mem_cons.mp hx with rfl | hx
      · exact hvm
      · exact h2 x hx
    · intro c hc
      subst hc
      have := h3 (max c v) (by simp [omax1])
      exact le_trans (le_max_left c v) this

theorem omaxL_eq_none_iff (vs : List Int) :
    ∀ a, omaxL a vs = none ↔ a = none ∧ vs = [] := by
  induction vs with
  | nil => intro a; simp [omaxL_nil]
  | cons v t ih =>
    intro a
    rw [omaxL_cons, ih]
    cases a <;> simp [omax1]

theorem omaxL_some_of_some (vs : List Int) :
    ∀ c, ∃ m, omaxL (some c) vs = some m ∧ c ≤ m := by
  induction vs with
  | nil => intro c; exact ⟨c, rfl, le_refl c⟩
  | cons v t ih =>
    intro c
    rw [omaxL_cons]
    obtain ⟨m, hm, hle⟩ := ih (max c v)
    exact ⟨m, hm, le_trans (le_max_left c v) hle⟩

theorem omaxL_eq_of_subsets {vs1 vs2 : List Int} (a : Option Int)
    (h12 : ∀ x ∈ vs1, x ∈ vs2) (h21 : ∀ x ∈ vs2, x ∈ vs1) :
    omaxL a vs1 = omaxL a vs2 := by
  cases e1 : omaxL a vs1 with
  | none =>
    rcases (omaxL_eq_none_iff vs1 a).mp e1 with ⟨ha, hv1⟩
    subst ha
    subst hv1
    cases vs2 with
    | nil => rfl
    | cons w t => exact absurd (h21 w (List.mem_cons_self w t)) (by simp)
  | some m1 =>
    cases e2 : omaxL a vs2 with
    | none =>
      rcases (omaxL_eq_none_iff vs2 a).mp e2 with ⟨ha, hv2⟩
      subst ha
      subst hv2
      cases vs1 with
      | nil => simp [omaxL_nil] at e1
      | cons w t => exact absurd (h12 w (List.mem_cons_self w t)) (by simp)
    | some m2 =>
      obtain ⟨p1, q1, r1⟩ := omaxL_spec vs1 a m1 e1
      obtain ⟨p2, q2, r2⟩ := omaxL_spec vs2 a m2 e2
      have hle1 : m1 ≤ m2 := by
        rcases p1 with p1 | p1
        · exact r2 m1 p1
        · exact q2 m1 (h12 m1 p1)
      have hle2 : m2 ≤ m1 := by
        rcases p2 with p2 | p2
        · exact r1 m2 p2
        · exact q1 m2 (h21 m2 p2)
      rw [le_antisymm hle1 hle2]

/-- G-Counter node (`src/src/bin/gcounter.rs` `Node`): shared substrate plus
the per-node counter map. -/
structure Node where
  inner : Lib.Node
  node_to_count : List (String × Int)
deriving DecidableEq

/-- `Node::new` (`gcounter.rs` 15-20): the own entry starts at 0. -/
def Node.new (inner : Lib.Node) : Node :=
  { inner := inner, node_to_count := [(inner.node_id, 0)] }

/-- `Node::handle_add` (`gcounter.rs` 22-33): respond `add_ok`, then add
`delta` to the node's own entry; the `unwrap` of a missing own entry and the
uninitialized-response assert are modelled as `none`. -/
def Node.handle_add (n : Node) (reqSrc : String) (reqMsgId : Nat) (delta : Int) :
    Option (Node × Lib.Message) :=
  match n.inner.build_response ⟨reqSrc, n.inner.node_id, "add", reqMsgId, none⟩ "add_ok" with
  | none => none
  | some p =>
    match gcLookup n.node_to_count n.inner.node_id with
    | none => none
    | some c =>
      some ({ inner := p.2,
              node_to_count := gcInsert n.inner.node_id (c + delta) n.node_to_count }, p.1)

/-- `Node::handle_read` (`gcounter.rs` 35-41): respond `read_ok` whose `value`
is the sum of all per-node entries (third component). -/
def Node.handle_read (n : Node) (reqSrc : String) (reqMsgId : Nat) :
    Option (Node × Lib.Message × Int) :=
  match n.inner.build_response ⟨reqSrc, n.inner.node_id, "read", reqMsgId, none⟩ "read_ok" with
  | none => none
  | some p =>
    some ({ n with inner := p.2 }, p.1, (n.node_to_count.map (fun kv => kv.2)).sum)

/-- Body of the `for` loop of `Node::handle_replicate` (`gcounter.rs` 49-61):
entries keyed by our own node id are filtered out; a present key keeps the
maximum of the old and received values; a missing key is inserted. -/
def mergeEntry (nid : String) (m : List (String × Int)) (kv : String × Int) :
    List (String × Int) :=
  if kv.1 = nid then m
  else
    match gcLookup m kv.1 with
    | some c => if c < kv.2 then gcInsert kv.1 kv.2 m else m
    | none => gcInsert kv.1 kv.2 m

/-- `Node::handle_replicate` (`gcounter.rs` 43-62) on the underlying map. -/
def mergeSnap (nid : String) (m : List (String × Int)) (snap : List (String × Int)) :
    List (String × Int) :=
  snap.foldl (mergeEntry nid) m

/-- `Node::handle_replicate` (`gcounter.rs` 43-62). -/
def Node.handle_replicate (n : Node) (value : List (String × Int)) : Node :=
  { n with node_to_count := mergeSnap n.inner.node_id n.node_to_count value }

/-- Values a snapshot contributes at key `k` (entries keyed by the node's own
id are skipped by the merge loop). -/
def valsAt (nid k : String) (snap : List (String × Int)) : List Int :=
  snap.filterMap (fun kv => if kv.1 = k ∧ kv.1 ≠ nid then some kv.2 else none)

theorem gcLookup_mergeEntry (nid : String) (m : List (String × Int)) (kv : String × Int)
    (k : String) :
    gcLookup (mergeEntry nid m kv) k =
      if kv.1 = k ∧ kv.1 ≠ nid then omax1 (gcLookup m k) kv.2 else gcLookup m k := by
  by_cases hn : kv.1 = nid
  · simp [mergeEntry, hn]
  · by_cases hk : kv.1 = k
    · subst hk
      cases e : gcLookup m kv.1 with
      | none => simp [mergeEntry, hn, e, gcLookup_gcInsert, omax1]
      | some c =>
        by_cases hc : c < kv.2
        · simp [mergeEntry, hn, e, hc, gcLookup_gcInsert, omax1,
            max_eq_right (le_of_lt hc)]
        · simp [mergeEntry, hn, e, hc, omax1, max_eq_left (le_of_not_lt hc)]
    · have hne : ¬ (kv.1 = k ∧ kv.1 ≠ nid) := fun h => hk h.1
      rw [if_neg hne]
      have hk' : ¬ k = kv.1 := fun h => hk h.symm
      simp only [mergeEntry, if_neg hn]
      cases e : gcLookup m kv.1 with
      | none =>
        dsimp only
        rw [gcLookup_gcInsert, if_neg hk']
      | some c =>
        dsimp only
        by_cases hc : c < kv.2
        · rw [if_pos hc, gcLookup_gcInsert, if_neg hk']
        · rw [if_neg hc]

theorem gcLookup_mergeSnap (nid : String) (snap : List (String × Int)) :
    ∀ (m : List (String × Int)) (k : String),
    gcLookup (mergeSnap nid m snap) k = omaxL (gcLookup m k) (valsAt nid k snap) := by
  induction snap with
  | nil => intro m k; rfl
  | cons kv t ih =>
    intro m k
    show gcLookup (mergeSnap nid (mergeEntry nid m kv) t) k = _
    rw [ih, gcLookup_mergeEntry]
    by_cases h : kv.1 = k ∧ kv.1 ≠ nid
    · rw [if_pos h]
      have hkn : ¬ k = nid := h.1 ▸ h.2
      have hv : valsAt nid k (kv :: t) = kv.2 :: valsAt nid k t := by
        simp [valsAt, List.filterMap_cons, h.1, hkn]
      rw [hv, omaxL_cons]
    · rw [if_neg h]
      have hv : valsAt nid k (kv :: t) = valsAt nid k t := by
        simp [valsAt, List.filterMap_cons, h]
      rw [hv]

/-- Deliver a list of `replicate` snapshots in order. -/
def applyReplicates (n : Node) (snaps : List (List (String × Int))) : Node :=
  snaps.foldl Node.handle_replicate n

theorem handle_replicate_inner_gc (n : Node) (value : List (String × Int)) :
    (n.handle_replicate value).inner = n.inner := rfl

theorem applyReplicates_inner_gc (snaps : List (List (String × Int))) :
    ∀ n, (applyReplicates n snaps).inner = n.inner := by
  induction snaps with
  | nil => intro n; rfl
  | cons s t ih => intro n; exact ih _

theorem applyReplicates_counts (snaps : List (List (String × Int))) :
    ∀ n : Node, (applyReplicates n snaps).node_to_count =
      snaps.foldl (mergeSnap n.inner.node_id) n.node_to_count := by
  induction snaps with
  | nil => intro n; rfl
  | cons s t ih =>
    intro n
    show (applyReplicates (n.handle_replicate s) t).node_to_count = _
    rw [ih]
    rfl

theorem gcLookup_foldl_mergeSnap (nid : String) (L : List (List (String × Int))) :
    ∀ (m : List (String × Int)) (k : String),
    gcLookup (L.foldl (mergeSnap nid) m) k =
      omaxL (gcLookup m k) (L.bind (valsAt nid k)) := by
  induction L with
  | nil => intro m k; simp [omaxL_nil]
  | cons s t ih =>
    intro m k
    show gcLookup (t.foldl (mergeSnap nid) (mergeSnap nid m s)) k = _
    rw [ih, gcLookup_mergeSnap]
    have hb : (s :: t).bind (valsAt nid k) = valsAt nid k s ++ t.bind (valsAt nid k) := by
      simp [List.bind]
    rw [hb, omaxL_append]

theorem sortedMap_mergeEntry {nid : String} {m : List (String × Int)} {kv : String × Int}
    (hs : SortedMap m) : SortedMap (mergeEntry nid m kv) := by
  unfold mergeEntry
  split
  · exact hs
  · split
    · split
      · exact sortedMap_gcInsert hs
      · exact hs
    · exact sortedMap_gcInsert hs

theorem sortedMap_mergeSnap {nid : String} (snap : List (String × Int)) :
    ∀ {m : List (String × Int)}, SortedMap m → SortedMap (mergeSnap nid m snap) := by
  induction snap with
  | nil => intro m hs; exact hs
  | cons kv t ih =>
    intro m hs
    exact ih (sortedMap_mergeEntry hs)

theorem sortedMap_foldl_mergeSnap {nid : String} (L : List (List (String × Int))) :
    ∀ {m : List (String × Int)}, SortedMap m →
      SortedMap (L.foldl (mergeSnap nid) m) := by
  induction L with
  | nil => intro m hs; exact hs
  | cons s t ih =>
    intro m hs
    exact ih (sortedMap_mergeSnap s hs)

theorem mem_of_gcLookup : ∀ {l : List (String × Int)} {k : String} {v : Int},
    gcLookup l k = some v → (k, v) ∈ l := by
  intro l
  induction l with
  | nil => intro k v h; simp [gcLookup] at h
  | cons kv t ih =>
    intro k v h
    simp only [gcLookup] at h
    by_cases hk : kv.1 = k
    · rw [if_pos hk] at h
      refine List.mem_cons.mpr (Or.inl ?_)
      rw [(Option.some_inj.mp h).symm, ← hk]
    · rw [if_neg hk] at h
      exact List.mem_cons_of_mem kv (ih h)

theorem mem_mergeEntry {nid : String} {m : List (String × Int)} {kv : String × Int}
    {p : String × Int} (h : p ∈ mergeEntry nid m kv) : p ∈ m ∨ p = (kv.1, kv.2) := by
  unfold mergeEntry at h
  split at h
  · exact Or.inl h
  · split at h
    · split at h
      · rcases mem_gcInsert h with h | h
        · exact Or.inr h
        · exact Or.inl h
      · exact Or.inl h
    · rcases mem_gcInsert h with h | h
      · exact Or.inr h
      · exact Or.inl h

theorem mem_mergeSnap {nid : String} (snap : List (String × Int)) :
    ∀ {m : List (String × Int)} {p : String × Int}, p ∈ mergeSnap nid m snap →
      p ∈ m ∨ ∃ q ∈ snap, p.2 = q.2 := by
  induction snap with
  | nil =>
    intro m p h
    exact Or.inl h
  | cons kv t ih =>
    intro m p h
    rcases ih h with h | ⟨q, hq, hpq⟩
    · rcases mem_mergeEntry h with h | h
      · exact Or.inl h
      · exact Or.inr ⟨kv, List.mem_cons_self kv t, by rw [h]⟩
    · exact Or.inr ⟨q, List.mem_cons_of_mem kv hq, hpq⟩

theorem valsAt_self (nid : String) (snap : List (String × Int)) :
    valsAt nid nid snap = [] := by
  rw [valsAt, List.filterMap_eq_nil]
  intro kv _
  rw [if_neg]
  rintro ⟨h1, h2⟩
  exact h2 h1

end GCounter

theorem Lib.build_response_some {n : Lib.Node} {req : Lib.Message} {t : String}
    {p : Lib.Message × Lib.Node} (h : n.build_response req t = some p) :
    p.1.src = n.node_id ∧ p.1.dest = req.src ∧ p.1.typ = t ∧ p.1.msg_id = n.msg_id ∧
      p.1.in_reply_to = some req.msg_id ∧ p.2 = { n with msg_id := n.msg_id + 1 } ∧
      ¬ n.node_id = "" := by
  unfold Lib.Node.build_response Lib.Node.build_message at h
  by_cases hid : n.node_id = ""
  · rw [if_pos hid] at h
    simp at h
  · rw [if_neg hid] at h
    rw [Option.some_inj] at h
    refine ⟨?_, ?_, ?_, ?_, ?_, ?_, hid⟩ <;> rw [← h]

theorem Lib.build_response_none {n : Lib.Node} {req : Lib.Message} {t : String}
    (h : n.node_id = "") : n.build_response req t = none := by
  unfold Lib.Node.build_response
  rw [if_pos h]

namespace GCounter

/-- One inbound operation for the counter node. -/
inductive Op where
  | add (reqSrc : String) (reqMsgId : Nat) (delta : Int)
  | read (reqSrc : String) (reqMsgId : Nat)
  | replicate (value : List (String × Int))
deriving DecidableEq

/-- Deliver a list of operations in order; a panic aborts the run. -/
def runOps (n : Node) : List Op → Option Node
  | [] => some n
  | Op.add s i d :: ops =>
    match n.handle_add s i d with
    | none => none
    | some p => runOps p.1 ops
  | Op.read s i :: ops =>
    match n.handle_read s i with
    | none => none
    | some p => runOps p.1 ops
  | Op.replicate v :: ops => runOps (n.handle_replicate v) ops

theorem handle_add_spec {n : Node} {s : String} {i : Nat} {d : Int} {n' : Node}
    {resp : Lib.Message} (h : n.handle_add s i d = some (n', resp)) :
    ∃ c, gcLookup n.node_to_count n.inner.node_id = some c ∧
      n'.node_to_count = gcInsert n.inner.node_id (c + d) n.node_to_count ∧
      n'.inner.node_id = n.inner.node_id := by
  unfold Node.handle_add at h
  cases hb : n.inner.build_response ⟨s, n.inner.node_id, "add", i, none⟩ "add_ok" with
  | none =>
    rw [hb] at h
    simp at h
  | some p =>
    rw [hb] at h
    dsimp only at h
    cases e : gcLookup n.node_to_count n.inner.node_id with
    | none =>
      rw [e] at h
      simp at h
    | some c =>
      rw [e] at h
      dsimp only at h
      rw [Option.some_inj] at h
      have h1 := congrArg Prod.fst h
      dsimp only at h1
      obtain ⟨_, _, _, _, _, hp2, _⟩ := Lib.build_response_some hb
      refine ⟨c, e ▸ rfl, ?_, ?_⟩
      · rw [← h1]
      · rw [← h1, hp2]

theorem handle_read_spec_gc {n : Node} {s : String} {i : Nat}
    {out : Node × Lib.Message × Int} (h : n.handle_read s i = some out) :
    out.1.node_to_count = n.node_to_count ∧ out.1.inner.node_id = n.inner.node_id ∧
      out.2.2 = (n.node_to_count.map (fun kv => kv.2)).sum := by
  unfold Node.handle_read at h
  cases hb : n.inner.build_response ⟨s, n.inner.node_id, "read", i, none⟩ "read_ok" with
  | none =>
    rw [hb] at h
    simp at h
  | some p =>
    rw [hb] at h
    dsimp only at h
    rw [Option.some_inj] at h
    obtain ⟨_, _, _, _, _, hp2, _⟩ := Lib.build_response_some hb
    refine ⟨?_, ?_, ?_⟩ <;> rw [← h]
    rw [hp2]

end GCounter

namespace Broadcast

/-- Wire message of the broadcast node: envelope plus the body fields this
protocol uses (`msg_id`, `type`, optional `in_reply_to`, optional broadcast
payload `message`, optional `read_ok` payload `messages`). -/
structure Message where
  src : String
  dest : String
  typ : String
  msg_id : Nat
  in_reply_to : Option Nat
  message : Option Nat
  messages : Option (List Nat)
deriving DecidableEq

/-- `MessageBuilder` (`broadcast.rs` 9-15): the bare message-id counter, split
out of `Node` for borrow reasons in the source. -/
structure MessageBuilder where
  msg_id : Nat
deriving DecidableEq

/-- `MessageBuilder::build_message` (`broadcast.rs` 17-32): return the envelope
carrying the current counter value and advance the counter.  The counter is a
`u64` and `msg_id += 1` wraps at `2^64` (release semantics); this definition
idealizes it as unbounded (adequate while the counter cannot overflow) —
`MessageBuilder.build_message_u64` below is the wrap-exact version used for
the id-reuse analysis. -/
def MessageBuilder.build_message (b : MessageBuilder) (src dest msg_type : String) :
    Message × MessageBuilder :=
  ({ src := src, dest := dest, typ := msg_type, msg_id := b.msg_id,
     in_reply_to := none, message := none, messages := none },
   { msg_id := b.msg_id + 1 })

/-- `MessageBuilder::build_message` with the `u64` increment made exact
(`broadcast.rs` 19): the stored counter is the successor modulo `2^64`. -/
def MessageBuilder.build_message_u64 (b : MessageBuilder) (src dest msg_type : String) :
    Message × MessageBuilder :=
  ({ src := src, dest := dest, typ := msg_type, msg_id := b.msg_id,
     in_reply_to := none, message := none, messages := none },
   { msg_id := (b.msg_id + 1) % 2 ^ 64 })

/-- Broadcast node state (`broadcast.rs` 35-42): identity, neighbor topology,
seen set, id counter and the unacknowledged-send map. -/
structure Node where
  node_id : String
  neighbors : List String
  messages : List Nat
  msg_builder : MessageBuilder
  awaiting_reply : List (Nat × Message)
deriving DecidableEq

/-- Lookup in the model of `HashMap<u64, String>` (`awaiting_reply`). -/
def aLookup : List (Nat × Message) → Nat → Option Message
  | [], _ => none
  | kv :: t, k => if kv.1 = k then some kv.2 else aLookup t k

/-- `HashMap::insert`: bind the key, replacing any existing binding. -/
def aInsert (k : Nat) (v : Message) (l : List (Nat × Message)) : List (Nat × Message) :=
  (k, v) :: l.filter (fun kv => kv.1 != k)

/-- `HashMap::remove`. -/
def aRemove (k : Nat) (l : List (Nat × Message)) : List (Nat × Message) :=
  l.filter (fun kv => kv.1 != k)

theorem aLookup_filter_ne {k q : Nat} (hne : ¬ q = k) :
    ∀ (l : List (Nat × Message)), aLookup (l.filter (fun kv => kv.1 != k)) q = aLookup l q := by
  intro l
  induction l with
  | nil => rfl
  | cons kv t ih =>
    by_cases hk : kv.1 = k
    · have : (kv.1 != k) = false := by simp [hk]
      rw [List.filter_cons, this]
      simp only [Bool.false_eq_true, if_false]
      rw [ih]
      simp only [aLookup, if_neg (fun h : kv.1 = q => hne (hk ▸ h ▸ rfl))]
    · have : (kv.1 != k) = true := by simp [hk]
      rw [List.filter_cons, this]
      simp only [if_true]
      simp only [aLookup, ih]

theorem aLookup_filter_self (k : Nat) :
    ∀ (l : List (Nat × Message)), aLookup (l.filter (fun kv => kv.1 != k)) k = none := by
  intro l
  induction l with
  | nil => rfl
  | cons kv t ih =>
    by_cases hk : kv.1 = k
    · have : (kv.1 != k) = false := by simp [hk]
      rw [List.filter_cons, this]
      simp only [Bool.false_eq_true, if_false]
      exact ih
    · have : (kv.1 != k) = true := by simp [hk]
      rw [List.filter_cons, this]
      simp only [if_true, aLookup, if_neg hk]
      exact ih

theorem aLookup_aInsert (k : Nat) (v : Message) (l : List (Nat × Message)) (q : Nat) :
    aLookup (aInsert k v l) q = if q = k then some v else aLookup l q := by
  by_cases hq : q = k
  · subst hq
    simp [aInsert, aLookup]
  · have hq' : ¬ k = q := fun h => hq h.symm
    simp only [aInsert, aLookup, if_neg hq', if_neg hq, aLookup_filter_ne hq]

theorem aLookup_aRemove (k : Nat) (l : List (Nat × Message)) (q : Nat) :
    aLookup (aRemove k l) q = if q = k then none else aLookup l q := by
  by_cases hq : q = k
  · subst hq
    simp [aRemove, aLookup_filter_self]
  · simp [aRemove, aLookup_filter_ne hq, hq]

theorem aRemove_eq_self_of_none {k : Nat} {l : List (Nat × Message)}
    (h : aLookup l k = none) : aRemove k l = l := by
  induction l with
  | nil => rfl
  | cons kv t ih =>
    simp only [aLookup] at h
    by_cases hk : kv.1 = k
    · rw [if_pos hk] at h
      cases h
    · rw [if_neg hk] at h
      have hb : (kv.1 != k) = true := by simp [hk]
      simp only [aRemove, List.filter_cons, hb, if_true]
      have := ih h
      simp only [aRemove] at this
      rw [this]

theorem mem_aInsert {p : Nat × Message} {k : Nat} {v : Message} {l : List (Nat × Message)}
    (h : p ∈ aInsert k v l) : p = (k, v) ∨ p ∈ l := by
  simp only [aInsert, List.mem_cons] at h
  rcases h with h | h
  · exact Or.inl h
  · exact Or.inr (List.mem_of_mem_filter h)

/-- Observable action of a handler, in program order: a transmitted message
(`println`) or a recorded `awaiting_reply` insertion. -/
inductive Event where
  | send (m : Message)
  | insertAwait (k : Nat) (m : Message)
deriving DecidableEq

/-- `Node::build_response` (`broadcast.rs` 70-88): like the substrate variant
but without the initialization assert. -/
def Node.build_response (n : Node) (reqSrc : String) (reqMsgId : Nat) (msg_type : String) :
    Message × Node :=
  let p := n.msg_builder.build_message n.node_id reqSrc msg_type
  ({ p.1 with in_reply_to := some reqMsgId }, { n with msg_builder := p.2 })

/-- The forwarded `broadcast` message addressed to one neighbor. -/
def fwdMsg (nid : String) (msg : Nat) (i : Nat) (neighbor : String) : Message :=
  { src := nid, dest := neighbor, typ := "broadcast", msg_id := i,
    in_reply_to := none, message := some msg, messages := none }

/-- Fan-out loop body of `Node::handle_broadcast` (`broadcast.rs` 131-147): for
one neighbor, build a fresh `broadcast` message carrying `msg`, record it in
`awaiting_reply` keyed by its fresh id, then transmit it. -/
def fanStep (msg : Nat) (acc : Node × List Event) (neighbor : String) : Node × List Event :=
  let p := acc.1.msg_builder.build_message acc.1.node_id neighbor "broadcast"
  let m := { p.1 with message := some msg }
  let n' := { acc.1 with
    msg_builder := p.2,
    awaiting_reply := aInsert m.msg_id m acc.1.awaiting_reply }
  (n', acc.2 ++ [Event.insertAwait m.msg_id m, Event.send m])

/-- `Node::handle_broadcast` (`broadcast.rs` 116-149): build the `broadcast_ok`
response, insert the payload into the seen set, transmit the ack, and — only
when the payload is new — fan out to every neighbor other than the sender. -/
def Node.handle_broadcast (n : Node) (reqSrc : String) (reqMsgId : Nat) (msg : Nat) :
    Node × List Event :=
  let rp := n.build_response reqSrc reqMsgId "broadcast_ok"
  let n1 := { rp.2 with messages := GSet.sInsert msg rp.2.messages }
  if msg ∈ rp.2.messages then (n1, [Event.send rp.1])
  else (n1.neighbors.filter (fun x => x != reqSrc)).foldl (fanStep msg) (n1, [Event.send rp.1])

/-- `Node::handle_broadcast_ok` (`broadcast.rs` 151-156): drop the matching
`awaiting_reply` entry; a missing key is a no-op. -/
def Node.handle_broadcast_ok (n : Node) (inReplyTo : Nat) : Node :=
  { n with awaiting_reply := aRemove inReplyTo n.awaiting_reply }

/-- Topology-map lookup (`take_field` of this node's key). -/
def topoLookup : List (String × List String) → String → Option (List String)
  | [], _ => none
  | kv :: t, k => if kv.1 = k then some kv.2 else topoLookup t k

/-- `Node::handle_topology` (`broadcast.rs` 96-114): build `topology_ok` first,
take this node's neighbor list from the map (a missing key panics, modelled as
`none`), then transmit the response. -/
def Node.handle_topology (n : Node) (reqSrc : String) (reqMsgId : Nat)
    (topology : List (String × List String)) : Option (Node × List Event) :=
  let rp := n.build_response reqSrc reqMsgId "topology_ok"
  match topoLookup topology n.node_id with
  | none => none
  | some nb => some ({ rp.2 with neighbors := nb }, [Event.send rp.1])

/-- `Node::handle_read` (`broadcast.rs` 158-165): respond `read_ok` carrying
the full seen set in the `messages` body field. -/
def Node.handle_read (n : Node) (reqSrc : String) (reqMsgId : Nat) : Node × List Event :=
  let rp := n.build_response reqSrc reqMsgId "read_ok"
  (rp.2, [Event.send { rp.1 with messages := some n.messages }])

/-- `Node::retry_messages` (`broadcast.rs` 167-172): retransmit every message
still awaiting an acknowledgment; the node state is untouched. -/
def Node.retry_messages (n : Node) : List Event :=
  n.awaiting_reply.map (fun kv => Event.send kv.2)

/-- Specification-side description of the fan-out: for each neighbor in order,
one `awaiting_reply` insertion immediately followed by the transmission of the
same freshly numbered `broadcast` message (ids counting up from `c`). -/
def fanEvents (nid : String) (msg : Nat) : Nat → List String → List Event
  | _, [] => []
  | c, nb :: t =>
    Event.insertAwait c (fwdMsg nid msg c nb) :: Event.send (fwdMsg nid msg c nb) ::
      fanEvents nid msg (c + 1) t

theorem fanFold_node_id (msg : Nat) (ns : List String) :
    ∀ (a : Node × List Event), ((ns.foldl (fanStep msg) a).1.node_id = a.1.node_id) ∧
      ((ns.foldl (fanStep msg) a).1.neighbors = a.1.neighbors) ∧
      ((ns.foldl (fanStep msg) a).1.messages = a.1.messages) ∧
      ((ns.foldl (fanStep msg) a).1.msg_builder.msg_id =
        a.1.msg_builder.msg_id + ns.length) := by
  induction ns with
  | nil => intro a; exact ⟨rfl, rfl, rfl, rfl⟩
  | cons nb t ih =>
    intro a
    obtain ⟨h1, h2, h3, h4⟩ := ih (fanStep msg a nb)
    refine ⟨h1.trans rfl, h2.trans rfl, h3.trans rfl, ?_⟩
    rw [List.foldl_cons, h4]
    simp only [fanStep, MessageBuilder.build_message, List.length_cons]
    omega

theorem fanFold_events (msg : Nat) (ns : List String) :
    ∀ (n : Node) (evs : List Event),
      (ns.foldl (fanStep msg) (n, evs)).2 =
        evs ++ fanEvents n.node_id msg n.msg_builder.msg_id ns := by
  induction ns with
  | nil => intro n evs; simp [fanEvents]
  | cons nb t ih =>
    intro n evs
    rw [List.foldl_cons]
    have hstep : fanStep msg (n, evs) nb =
        ({ node_id := n.node_id, neighbors := n.neighbors, messages := n.messages,
           msg_builder := ⟨n.msg_builder.msg_id + 1⟩,
           awaiting_reply := aInsert n.msg_builder.msg_id
             (fwdMsg n.node_id msg n.msg_builder.msg_id nb) n.awaiting_reply },
         evs ++ [Event.insertAwait n.msg_builder.msg_id
             (fwdMsg n.node_id msg n.msg_builder.msg_id nb),
           Event.send (fwdMsg n.node_id msg n.msg_builder.msg_id nb)]) := by
      simp [fanStep, MessageBuilder.build_message, fwdMsg]
    rw [hstep, ih]
    simp [fanEvents, List.append_assoc]

theorem fanStep_eq (msg : Nat) (n : Node) (evs : List Event) (nb : String) :
    fanStep msg (n, evs) nb =
      ({ node_id := n.node_id, neighbors := n.neighbors, messages := n.messages,
         msg_builder := ⟨n.msg_builder.msg_id + 1⟩,
         awaiting_reply := aInsert n.msg_builder.msg_id
           (fwdMsg n.node_id msg n.msg_builder.msg_id nb) n.awaiting_reply },
       evs ++ [Event.insertAwait n.msg_builder.msg_id
           (fwdMsg n.node_id msg n.msg_builder.msg_id nb),
         Event.send (fwdMsg n.node_id msg n.msg_builder.msg_id nb)]) := by
  simp [fanStep, MessageBuilder.build_message, fwdMsg]

theorem fanFold_lookup_old (msg : Nat) (ns : List String) :
    ∀ (n : Node) (evs : List Event) (k : Nat),
      (∀ i, i < ns.length → k ≠ n.msg_builder.msg_id + i) →
      aLookup (ns.foldl (fanStep msg) (n, evs)).1.awaiting_reply k =
        aLookup n.awaiting_reply k := by
  induction ns with
  | nil => intro n evs k _; rfl
  | cons nb t ih =>
    intro n evs k hk
    have h0 : ¬ k = n.msg_builder.msg_id := by
      have := hk 0 (by simp)
      simpa using this
    rw [List.foldl_cons, fanStep_eq]
    rw [ih _ _ k ?cond]
    · dsimp only
      rw [aLookup_aInsert, if_neg h0]
    case cond =>
      intro i hi heq
      have h2 : i + 1 < (nb :: t).length := by
        simp only [List.length_cons]
        omega
      refine hk (i + 1) h2 ?_
      dsimp only at heq
      omega

theorem fanFold_lookup_new (msg : Nat) (ns : List String) :
    ∀ (n : Node) (evs : List Event) (i : Nat) (h : i < ns.length),
      aLookup (ns.foldl (fanStep msg) (n, evs)).1.awaiting_reply
          (n.msg_builder.msg_id + i) =
        some (fwdMsg n.node_id msg (n.msg_builder.msg_id + i) (ns.get ⟨i, h⟩)) := by
  induction ns with
  | nil => intro n evs i h; exact absurd h (by simp)
  | cons nb t ih =>
    intro n evs i h
    rw [List.foldl_cons, fanStep_eq]
    cases i with
    | zero =>
      simp only [Nat.add_zero]
      rw [fanFold_lookup_old msg t _ _ _ ?cond]
      · dsimp only
        rw [aLookup_aInsert, if_pos rfl]
        rfl
      case cond =>
        intro j hj heq
        dsimp only at heq
        omega
    | succ j =>
      have hj : j < t.length := by
        simp only [List.length_cons] at h
        omega
      have harith : n.msg_builder.msg_id + (j + 1) = n.msg_builder.msg_id + 1 + j := by
        omega
      rw [harith]
      exact ih _ _ j hj

theorem fanFold_await_mem (msg : Nat) (ns : List String) :
    ∀ (n : Node) (evs : List Event) (p : Nat × Message),
      p ∈ (ns.foldl (fanStep msg) (n, evs)).1.awaiting_reply →
      p ∈ n.awaiting_reply ∨
        (n.msg_builder.msg_id ≤ p.1 ∧ p.1 < n.msg_builder.msg_id + ns.length) := by
  induction ns with
  | nil =>
    intro n evs p hp
    exact Or.inl hp
  | cons nb t ih =>
    intro n evs p hp
    rw [List.foldl_cons, fanStep_eq] at hp
    rcases ih _ _ p hp with hp | ⟨hlo, hhi⟩
    · dsimp only at hp
      rcases mem_aInsert hp with rfl | hp
      · refine Or.inr ⟨le_refl _, ?_⟩
        simp only [List.length_cons]
        omega
      · exact Or.inl hp
    · dsimp only at hlo hhi
      refine Or.inr ⟨by omega, ?_⟩
      simp only [List.length_cons]
      omega

theorem mem_of_aLookup : ∀ {l : List (Nat × Message)} {k : Nat} {w : Message},
    aLookup l k = some w → (k, w) ∈ l := by
  intro l
  induction l with
  | nil => intro k w h; cases h
  | cons kv t ih =>
    intro k w h
    simp only [aLookup] at h
    by_cases hk : kv.1 = k
    · rw [if_pos hk] at h
      refine List.mem_cons.mpr (Or.inl ?_)
      rw [(Option.some_inj.mp h).symm, ← hk]
    · rw [if_neg hk] at h
      exact List.mem_cons_of_mem kv (ih h)

/-- The `broadcast_ok` acknowledgment sent back to the immediate sender. -/
def ackMsg (n : Node) (reqSrc : String) (reqMsgId : Nat) : Message :=
  { src := n.node_id, dest := reqSrc, typ := "broadcast_ok",
    msg_id := n.msg_builder.msg_id, in_reply_to := some reqMsgId,
    message := none, messages := none }

theorem handle_broadcast_old {n : Node} {s : String} {rid msg : Nat}
    (hs : GSet.SortedSet n.messages) (hmem : msg ∈ n.messages) :
    n.handle_broadcast s rid msg =
      ({ node_id := n.node_id, neighbors := n.neighbors, messages := n.messages,
         msg_builder := ⟨n.msg_builder.msg_id + 1⟩,
         awaiting_reply := n.awaiting_reply },
       [Event.send (ackMsg n s rid)]) := by
  unfold Node.handle_broadcast Node.build_response MessageBuilder.build_message
  dsimp only
  rw [if_pos hmem, GSet.sInsert_eq_of_mem hs hmem]
  rfl

/-- Node state right after the `broadcast_ok` response was built and the
payload inserted into the seen set, before any fan-out. -/
def postAck (n : Node) (msg : Nat) : Node :=
  { node_id := n.node_id, neighbors := n.neighbors,
    messages := GSet.sInsert msg n.messages,
    msg_builder := ⟨n.msg_builder.msg_id + 1⟩,
    awaiting_reply := n.awaiting_reply }

theorem handle_broadcast_new_eq {n : Node} {s : String} {rid msg : Nat}
    (hnew : ¬ msg ∈ n.messages) :
    n.handle_broadcast s rid msg =
      (n.neighbors.filter (fun x => x != s)).foldl (fanStep msg)
        (postAck n msg, [Event.send (ackMsg n s rid)]) := by
  unfold Node.handle_broadcast Node.build_response MessageBuilder.build_message postAck
  dsimp only
  rw [if_neg hnew]
  rfl

theorem handle_broadcast_fields (n : Node) (s : String) (rid msg : Nat) :
    (n.handle_broadcast s rid msg).1.messages = GSet.sInsert msg n.messages ∧
      (n.handle_broadcast s rid msg).1.node_id = n.node_id ∧
      (n.handle_broadcast s rid msg).1.neighbors = n.neighbors := by
  unfold Node.handle_broadcast Node.build_response MessageBuilder.build_message
  dsimp only
  split
  · exact ⟨rfl, rfl, rfl⟩
  · have h := fanFold_node_id msg
      ((List.filter (fun x => x != s) n.neighbors))
      ({ node_id := n.node_id, neighbors := n.neighbors,
         messages := GSet.sInsert msg n.messages,
         msg_builder := ⟨n.msg_builder.msg_id + 1⟩,
         awaiting_reply := n.awaiting_reply },
       [Event.send (ackMsg n s rid)])
    exact ⟨h.2.2.1, h.1, h.2.1⟩

theorem mem_fanEvents_send {nid : String} {msg : Nat} : ∀ {ns : List String} {c : Nat}
    {m : Message}, Event.send m ∈ fanEvents nid msg c ns →
      ∃ i, ∃ h : i < ns.length, m = fwdMsg nid msg (c + i) (ns.get ⟨i, h⟩) := by
  intro ns
  induction ns with
  | nil => intro c m h; cases h
  | cons nb t ih =>
    intro c m h
    simp only [fanEvents, List.mem_cons] at h
    rcases h with h | h | h
    · cases h
    · refine ⟨0, by simp, ?_⟩
      simp only [Nat.add_zero]
      exact (Event.send.injEq _ _).mp h
    · obtain ⟨i, hi, hm⟩ := ih h
      refine ⟨i + 1, by simp only [List.length_cons]; omega, ?_⟩
      rw [hm]
      have : c + 1 + i = c + (i + 1) := by omega
      rw [this]
      rfl

/-- Reachable-state invariant of the broadcast node: every `awaiting_reply`
key was allocated by this node's counter in the past. -/
def WfAwait (n : Node) : Prop :=
  ∀ kv ∈ n.awaiting_reply, kv.1 < n.msg_builder.msg_id

theorem handle_broadcast_await_frame {n : Node} {s : String} {rid msg k : Nat}
    {w : Message} (hwf : WfAwait n) (hk : aLookup n.awaiting_reply k = some w) :
    aLookup (n.handle_broadcast s rid msg).1.awaiting_reply k = some w := by
  have hklt : k < n.msg_builder.msg_id := hwf (k, w) (mem_of_aLookup hk)
  by_cases hmem : msg ∈ n.messages
  · unfold Node.handle_broadcast Node.build_response MessageBuilder.build_message
    dsimp only
    rw [if_pos hmem]
    exact hk
  · rw [handle_broadcast_new_eq hmem]
    have hcond : ∀ i, i < (n.neighbors.filter (fun x => x != s)).length →
        k ≠ (postAck n msg).msg_builder.msg_id + i := by
      intro i _ heq
      simp only [postAck] at heq
      omega
    rw [fanFold_lookup_old msg _ _ _ k hcond]
    exact hk

theorem wfAwait_handle_broadcast {n : Node} (hwf : WfAwait n) (s : String)
    (rid msg : Nat) : WfAwait (n.handle_broadcast s rid msg).1 := by
  by_cases hmem : msg ∈ n.messages
  · unfold Node.handle_broadcast Node.build_response MessageBuilder.build_message
    dsimp only
    rw [if_pos hmem]
    intro kv hkv
    have := hwf kv hkv
    dsimp only
    omega
  · rw [handle_broadcast_new_eq hmem]
    intro kv hkv
    have hc := (fanFold_node_id msg (n.neighbors.filter (fun x => x != s))
      (postAck n msg, [Event.send (ackMsg n s rid)])).2.2.2
    have hc2 : (postAck n msg, [Event.send (ackMsg n s rid)]).1.msg_builder.msg_id =
        n.msg_builder.msg_id + 1 := rfl
    have hc3 : (postAck n msg).msg_builder.msg_id = n.msg_builder.msg_id + 1 := rfl
    rcases fanFold_await_mem msg _ _ _ kv hkv with h | ⟨hlo, hhi⟩
    · have := hwf kv (by simpa [postAck] using h)
      omega
    · omega

theorem handle_broadcast_ok_removes {n : Node} {m : Nat} {w : Message}
    (h : aLookup n.awaiting_reply m = some w) :
    aLookup (n.handle_broadcast_ok m).awaiting_reply m = none ∧
      (∀ k, k ≠ m → aLookup (n.handle_broadcast_ok m).awaiting_reply k =
        aLookup n.awaiting_reply k) ∧
      (n.handle_broadcast_ok m).messages = n.messages ∧
      (n.handle_broadcast_ok m).node_id = n.node_id ∧
      (n.handle_broadcast_ok m).neighbors = n.neighbors ∧
      (n.handle_broadcast_ok m).msg_builder = n.msg_builder := by
  refine ⟨?_, ?_, rfl, rfl, rfl, rfl⟩
  · show aLookup (aRemove m n.awaiting_reply) m = none
    rw [aLookup_aRemove, if_pos rfl]
  · intro k hk
    show aLookup (aRemove m n.awaiting_reply) k = _
    rw [aLookup_aRemove, if_neg hk]

theorem handle_broadcast_ok_noop {n : Node} {m : Nat}
    (h : aLookup n.awaiting_reply m = none) : n.handle_broadcast_ok m = n := by
  unfold Node.handle_broadcast_ok
  rw [aRemove_eq_self_of_none h]

theorem wfAwait_handle_broadcast_ok {n : Node} (hwf : WfAwait n) (m : Nat) :
    WfAwait (n.handle_broadcast_ok m) := by
  intro kv hkv
  exact hwf kv (List.mem_of_mem_filter hkv)

theorem handle_read_state (n : Node) (s : String) (rid : Nat) :
    (n.handle_read s rid).1.awaiting_reply = n.awaiting_reply ∧
      (n.handle_read s rid).1.messages = n.messages ∧
      (n.handle_read s rid).1.node_id = n.node_id ∧
      (n.handle_read s rid).1.neighbors = n.neighbors ∧
      (n.handle_read s rid).1.msg_builder.msg_id = n.msg_builder.msg_id + 1 :=
  ⟨rfl, rfl, rfl, rfl, rfl⟩

theorem wfAwait_handle_read {n : Node} (hwf : WfAwait n) (s : String) (rid : Nat) :
    WfAwait (n.handle_read s rid).1 := by
  intro kv hkv
  have := hwf kv hkv
  have h5 := (handle_read_state n s rid).2.2.2.2
  omega

theorem handle_topology_state {n : Node} {s : String} {rid : Nat}
    {topology : List (String × List String)} {out : Node × List Event}
    (h : n.handle_topology s rid topology = some out) :
    out.1.awaiting_reply = n.awaiting_reply ∧ out.1.messages = n.messages ∧
      out.1.node_id = n.node_id ∧
      out.1.msg_builder.msg_id = n.msg_builder.msg_id + 1 ∧
      topoLookup topology n.node_id = some out.1.neighbors := by
  unfold Node.handle_topology Node.build_response MessageBuilder.build_message at h
  dsimp only at h
  cases e : topoLookup topology n.node_id with
  | none =>
    rw [e] at h
    cases h
  | some nb =>
    rw [e] at h
    dsimp only at h
    rw [Option.some_inj] at h
    have h1 := congrArg Prod.fst h
    dsimp only at h1
    rw [← h1]
    exact ⟨rfl, rfl, rfl, rfl, rfl⟩

theorem wfAwait_handle_topology {n : Node} {s : String} {rid : Nat}
    {topology : List (String × List String)} {out : Node × List Event}
    (hwf : WfAwait n) (h : n.handle_topology s rid topology = some out) :
    WfAwait out.1 := by
  intro kv hkv
  obtain ⟨ha, _, _, hm, _⟩ := handle_topology_state h
  rw [ha] at hkv
  have := hwf kv hkv
  omega

theorem handle_broadcast_events (n : Node) (s : String) (rid v : Nat) :
    (n.handle_broadcast s rid v).2 =
      if v ∈ n.messages then [Event.send (ackMsg n s rid)]
      else Event.send (ackMsg n s rid) ::
        fanEvents n.node_id v (n.msg_builder.msg_id + 1)
          (n.neighbors.filter (fun x => x != s)) := by
  by_cases hmem : v ∈ n.messages
  · rw [if_pos hmem]
    unfold Node.handle_broadcast Node.build_response MessageBuilder.build_message
    dsimp only
    rw [if_pos hmem]
    rfl
  · rw [if_neg hmem, handle_broadcast_new_eq hmem, fanFold_events]
    rfl

theorem handle_broadcast_send_tracked {n : Node} {s : String} {rid v : Nat}
    {m : Message} (hm : Event.send m ∈ (n.handle_broadcast s rid v).2)
    (ht : m.typ = "broadcast") :
    aLookup (n.handle_broadcast s rid v).1.awaiting_reply m.msg_id = some m := by
  rw [handle_broadcast_events] at hm
  by_cases hmem : v ∈ n.messages
  · rw [if_pos hmem] at hm
    simp only [List.mem_singleton] at hm
    have hma : m = ackMsg n s rid := (Event.send.injEq _ _).mp hm
    rw [hma] at ht
    exact absurd (show ("broadcast_ok" : String) = "broadcast" from ht) (by decide)
  · rw [if_neg hmem] at hm
    rcases List.mem_cons.mp hm with heq | hm
    · have hma : m = ackMsg n s rid := (Event.send.injEq _ _).mp heq
      rw [hma] at ht
      exact absurd (show ("broadcast_ok" : String) = "broadcast" from ht) (by decide)
    · obtain ⟨i, hi, hmfwd⟩ := mem_fanEvents_send hm
      subst hmfwd
      rw [handle_broadcast_new_eq hmem]
      exact fanFold_lookup_new v _ (postAck n v) [Event.send (ackMsg n s rid)] i hi

/-- Deliver a sequence of `broadcast{message := v}` requests (sender and
request id per delivery) to one node, keeping only the state. -/
def applyBroadcasts (v : Nat) (n : Node) (ds : List (String × Nat)) : Node :=
  ds.foldl (fun s d => (s.handle_broadcast d.1 d.2 v).1) n

theorem applyBroadcasts_sorted (v : Nat) (ds : List (String × Nat)) :
    ∀ {n : Node}, GSet.SortedSet n.messages →
      GSet.SortedSet (applyBroadcasts v n ds).messages := by
  induction ds with
  | nil => intro n hs; exact hs
  | cons d rest ih =>
    intro n hs
    show GSet.SortedSet (applyBroadcasts v (n.handle_broadcast d.1 d.2 v).1 rest).messages
    apply ih
    rw [(handle_broadcast_fields n d.1 d.2 v).1]
    exact GSet.sortedSet_sInsert hs

theorem mem_messages_applyBroadcasts (v : Nat) (ds : List (String × Nat)) :
    ∀ {n : Node}, v ∈ n.messages → v ∈ (applyBroadcasts v n ds).messages := by
  induction ds with
  | nil => intro n h; exact h
  | cons d rest ih =>
    intro n h
    show v ∈ (applyBroadcasts v (n.handle_broadcast d.1 d.2 v).1 rest).messages
    apply ih
    rw [(handle_broadcast_fields n d.1 d.2 v).1]
    exact (GSet.mem_sInsert v v _).mpr (Or.inl rfl)

theorem applyBroadcasts_mem (v : Nat) (d : String × Nat) (ds : List (String × Nat))
    (n : Node) : v ∈ (applyBroadcasts v n (d :: ds)).messages := by
  show v ∈ (applyBroadcasts v (n.handle_broadcast d.1 d.2 v).1 ds).messages
  apply mem_messages_applyBroadcasts
  rw [(handle_broadcast_fields n d.1 d.2 v).1]
  exact (GSet.mem_sInsert v v _).mpr (Or.inl rfl)

/-- A call on the broadcast node that allocates a message id:
`MessageBuilder::build_message` directly, or through `Node::build_response`. -/
inductive BCall where
  | msg (src dest msg_type : String)
  | resp (reqSrc : String) (reqMsgId : Nat) (msg_type : String)
deriving DecidableEq

/-- `Node::build_response` (`broadcast.rs` 70-88) over the wrap-exact `u64`
counter of `MessageBuilder.build_message_u64`. -/
def Node.build_response_u64 (n : Node) (reqSrc : String) (reqMsgId : Nat) (msg_type : String) :
    Message × Node :=
  let p := n.msg_builder.build_message_u64 n.node_id reqSrc msg_type
  ({ p.1 with in_reply_to := some reqMsgId }, { n with msg_builder := p.2 })

/-- Run a sequence of id-allocating calls on the broadcast node under the
wrap-exact `u64` counter, collecting the returned messages in call order. -/
def nodeCalls (n : Node) : List BCall → List Message × Node
  | [] => ([], n)
  | BCall.msg s d t :: cs =>
    ((n.msg_builder.build_message_u64 s d t).1 ::
        (nodeCalls { n with msg_builder := (n.msg_builder.build_message_u64 s d t).2 } cs).1,
      (nodeCalls { n with msg_builder := (n.msg_builder.build_message_u64 s d t).2 } cs).2)
  | BCall.resp s i t :: cs =>
    ((n.build_response_u64 s i t).1 :: (nodeCalls (n.build_response_u64 s i t).2 cs).1,
      (nodeCalls (n.build_response_u64 s i t).2 cs).2)

theorem nodeCalls_ids (cs : List BCall) : ∀ (n : Node),
    n.msg_builder.msg_id + cs.length ≤ 2 ^ 64 →
    ((nodeCalls n cs).1.map Message.msg_id).Pairwise (· < ·) ∧
      ∀ i ∈ (nodeCalls n cs).1.map Message.msg_id, n.msg_builder.msg_id ≤ i := by
  induction cs with
  | nil => intro n _; simp [nodeCalls]
  | cons c cs ih =>
    cases c with
    | msg s d t =>
      intro n hb
      simp only [nodeCalls, List.map_cons]
      rcases Nat.lt_or_ge (n.msg_builder.msg_id + 1) (2 ^ 64) with hlt | hge
      · have hmod : (n.msg_builder.msg_id + 1) % 2 ^ 64 = n.msg_builder.msg_id + 1 :=
          Nat.mod_eq_of_lt hlt
        obtain ⟨ih1, ih2⟩ :=
          ih { n with msg_builder := (n.msg_builder.build_message_u64 s d t).2 }
            (by
              simp only [MessageBuilder.build_message_u64, hmod]
              simp only [List.length_cons] at hb
              omega)
        refine ⟨List.Pairwise.cons ?_ ih1, ?_⟩
        · intro b hbm
          have := ih2 b hbm
          simp only [MessageBuilder.build_message_u64, hmod] at this ⊢
          omega
        · intro i hi
          rcases List.mem_cons.mp hi with rfl | hi
          · simp [MessageBuilder.build_message_u64]
          · have := ih2 i hi
            simp only [MessageBuilder.build_message_u64, hmod] at this
            omega
      · have hlen : cs = [] := by
          have : cs.length = 0 := by
            simp only [List.length_cons] at hb
            omega
          exact List.length_eq_zero.mp this
        subst hlen
        simp [nodeCalls, MessageBuilder.build_message_u64]
    | resp s i t =>
      intro n hb
      simp only [nodeCalls, List.map_cons]
      rcases Nat.lt_or_ge (n.msg_builder.msg_id + 1) (2 ^ 64) with hlt | hge
      · have hmod : (n.msg_builder.msg_id + 1) % 2 ^ 64 = n.msg_builder.msg_id + 1 :=
          Nat.mod_eq_of_lt hlt
        obtain ⟨ih1, ih2⟩ := ih (n.build_response_u64 s i t).2
          (by
            simp only [Node.build_response_u64, MessageBuilder.build_message_u64, hmod]
            simp only [List.length_cons] at hb
            omega)
        refine ⟨List.Pairwise.cons ?_ ih1, ?_⟩
        · intro b hbm
          have := ih2 b hbm
          simp only [Node.build_response_u64, MessageBuilder.build_message_u64, hmod]
            at this ⊢
          omega
        · intro j hj
          rcases List.mem_cons.mp hj with rfl | hj
          · simp [Node.build_response_u64, MessageBuilder.build_message_u64]
          · have := ih2 j hj
            simp only [Node.build_response_u64, MessageBuilder.build_message_u64, hmod]
              at this
            omega
      · have hlen : cs = [] := by
          have : cs.length = 0 := by
            simp only [List.length_cons] at hb
            omega
          exact List.length_eq_zero.mp this
        subst hlen
        simp [nodeCalls, Node.build_response_u64, MessageBuilder.build_message_u64]

end Broadcast

namespace GSet

theorem extend_eq_of_subset {snap : List Nat} : ∀ {s : List Nat}, SortedSet s →
    (∀ x ∈ snap, x ∈ s) → snap.foldl (fun l v => sInsert v l) s = s := by
  induction snap with
  | nil => intro s _ _; rfl
  | cons v t ih =>
    intro s hs hsub
    show t.foldl (fun l v => sInsert v l) (sInsert v s) = s
    rw [sInsert_eq_of_mem hs (hsub v (List.mem_cons_self v t))]
    exact ih hs (fun x hx => hsub x (List.mem_cons_of_mem v hx))

theorem handle_replicate_idem {n : Node} {snap : List Nat} (hs : SortedSet n.messages) :
    (n.handle_replicate snap).handle_replicate snap = n.handle_replicate snap := by
  unfold Node.handle_replicate
  congr 1
  exact extend_eq_of_subset (sortedSet_extend snap hs)
    (fun x hx => (mem_extend x snap n.messages).mpr (Or.inr hx))

theorem node_ext {a b : Node} (h1 : a.inner = b.inner) (h2 : a.messages = b.messages) :
    a = b := by
  have ha : a = (⟨a.inner, a.messages⟩ : Node) := rfl
  rw [ha, h1, h2]

end GSet

namespace GCounter

theorem node_ext_gc {a b : Node} (h1 : a.inner = b.inner)
    (h2 : a.node_to_count = b.node_to_count) : a = b := by
  have ha : a = (⟨a.inner, a.node_to_count⟩ : Node) := rfl
  rw [ha, h1, h2]

theorem valsAt_nil_of_not_keys {nid k : String} : ∀ {snap : List (String × Int)},
    k ∉ snap.map Prod.fst → valsAt nid k snap = [] := by
  intro snap hk
  rw [valsAt, List.filterMap_eq_nil]
  intro kv hkv
  rw [if_neg]
  rintro ⟨h1, _⟩
  exact hk (h1 ▸ List.mem_map_of_mem Prod.fst hkv)

theorem valsAt_of_mem_nodup {nid k : String} {v : Int} : ∀ {snap : List (String × Int)},
    (snap.map Prod.fst).Nodup → (k, v) ∈ snap → k ≠ nid → valsAt nid k snap = [v] := by
  intro snap
  induction snap with
  | nil => intro _ hmem _; cases hmem
  | cons kv t ih =>
    intro hnd hmem hkn
    have hnd' : kv.1 ∉ t.map Prod.fst ∧ (t.map Prod.fst).Nodup := by
      rw [List.map_cons, List.nodup_cons] at hnd
      exact hnd
    obtain ⟨hhd, htl⟩ := hnd'
    rcases List.mem_cons.mp hmem with heq | hmem
    · have hk1 : k = kv.1 := congrArg Prod.fst heq
      have hv : valsAt nid k (kv :: t) = v :: valsAt nid k t := by
        rw [← heq]
        simp [valsAt, List.filterMap_cons, hkn]
      rw [hv, valsAt_nil_of_not_keys]
      intro hk
      exact hhd (hk1 ▸ hk)
    · have hne : kv.1 ≠ k := by
        intro h
        refine hhd ?_
        rw [h]
        exact List.mem_map_of_mem Prod.fst hmem
      have hv : valsAt nid k (kv :: t) = valsAt nid k t := by
        simp [valsAt, List.filterMap_cons, hne]
      rw [hv]
      exact ih htl hmem hkn

end GCounter

theorem GSet.handle_read_spec {n : GSet.Node} {s : String} {rid : Nat}
    {out : GSet.Node × Lib.Message × List Nat} (h : n.handle_read s rid = some out) :
    out.2.2 = n.messages ∧ out.1.messages = n.messages := by
  unfold GSet.Node.handle_read at h
  cases hb : n.inner.build_response ⟨s, n.inner.node_id, "read", rid, none⟩ "read_ok" with
  | none =>
    rw [hb] at h
    cases h
  | some p =>
    rw [hb] at h
    dsimp only at h
    rw [Option.some_inj] at h
    constructor
    · rw [← h]
    · rw [← h]

/-- C9: the G-Set node's `handle_replicate` merges by set union: an element is
in the local set after the merge exactly when it was in the local set before
or in the received snapshot (so the post-merge set, which is what `read()`
returns, is a superset of both); merging the same snapshot a second time
leaves the state unchanged; and concretely a node with local set {2, 4} that
handles `replicate{value: [1, 2, 3]}` subsequently reads {1, 2, 3, 4}. -/
theorem gset_replicate_is_union :
    (∀ (n : GSet.Node) (snap : List Nat) (x : Nat),
      x ∈ (n.handle_replicate snap).messages ↔ x ∈ n.messages ∨ x ∈ snap) ∧
    (∀ (n : GSet.Node) (snap : List Nat), GSet.SortedSet n.messages →
      (n.handle_replicate snap).handle_replicate snap = n.handle_replicate snap) ∧
    (∀ (n : GSet.Node) (s : String) (rid : Nat)
        (out : GSet.Node × Lib.Message × List Nat),
      n.handle_read s rid = some out → out.2.2 = n.messages) ∧
    (((GSet.Node.mk ⟨"n1", ["n1", "n2"], 5⟩ [2, 4]).handle_replicate [1, 2, 3]).messages
      = [1, 2, 3, 4]) ∧
    ((((GSet.Node.mk ⟨"n1", ["n1", "n2"], 5⟩ [2, 4]).handle_replicate
        [1, 2, 3]).handle_read "c0" 9).map (fun o => o.2.2) = some [1, 2, 3, 4]) := by
  refine ⟨?_, ?_, ?_, by decide, by decide⟩
  · intro n snap x
    exact GSet.handle_replicate_mem x n snap
  · intro n snap hs
    exact GSet.handle_replicate_idem hs
  · intro n s rid out h
    exact (GSet.handle_read_spec h).1

theorem gset_replicate_is_union_witness :
    (GSet.SortedSet [2, 4] ∧
      ((GSet.Node.mk ⟨"n1", ["n1"], 0⟩ [2, 4]).handle_replicate [1, 2]).handle_replicate
          [1, 2] = (GSet.Node.mk ⟨"n1", ["n1"], 0⟩ [2, 4]).handle_replicate [1, 2]) ∧
    ((GSet.Node.mk ⟨"n1", ["n1"], 3⟩ [2]).handle_read "c" 4 =
        some (GSet.Node.mk ⟨"n1", ["n1"], 4⟩ [2], ⟨"n1", "c", "read_ok", 3, some 4⟩, [2]) ∧
      ([2] : List Nat) = [2]) :=
  ⟨⟨by decide, gset_replicate_is_union.2.1 _ [1, 2] (by decide)⟩,
   ⟨by decide, gset_replicate_is_union.2.2.1 (GSet.Node.mk ⟨"n1", ["n1"], 3⟩ [2]) "c" 4
      (GSet.Node.mk ⟨"n1", ["n1"], 4⟩ [2], ⟨"n1", "c", "read_ok", 3, some 4⟩,
        ([2] : List Nat)) (by decide)⟩⟩

/-- C2: replicate merging is order-insensitive for both CRDT nodes: starting
from one state, delivering two collections of peer snapshots that contain the
same snapshots — in any order and with any duplication — produces equal final
states (hence equal `read()` values, which are computed from the state). -/
theorem crdt_merge_order_insensitive :
    (∀ (st : GCounter.Node) (L1 L2 : List (List (String × Int))),
      GCounter.SortedMap st.node_to_count →
      (∀ s ∈ L1, s ∈ L2) → (∀ s ∈ L2, s ∈ L1) →
      GCounter.applyReplicates st L1 = GCounter.applyReplicates st L2) ∧
    (∀ (st : GSet.Node) (L1 L2 : List (List Nat)),
      GSet.SortedSet st.messages →
      (∀ s ∈ L1, s ∈ L2) → (∀ s ∈ L2, s ∈ L1) →
      GSet.applyReplicates st L1 = GSet.applyReplicates st L2) := by
  constructor
  · intro st L1 L2 hs h12 h21
    apply GCounter.node_ext_gc
    · rw [GCounter.applyReplicates_inner_gc, GCounter.applyReplicates_inner_gc]
    · rw [GCounter.applyReplicates_counts, GCounter.applyReplicates_counts]
      apply GCounter.sortedMap_ext (GCounter.sortedMap_foldl_mergeSnap _ hs)
        (GCounter.sortedMap_foldl_mergeSnap _ hs)
      intro k
      rw [GCounter.gcLookup_foldl_mergeSnap, GCounter.gcLookup_foldl_mergeSnap]
      apply GCounter.omaxL_eq_of_subsets
      · intro x hx
        rcases List.mem_bind.mp hx with ⟨snap, hsnap, hxs⟩
        exact List.mem_bind.mpr ⟨snap, h12 snap hsnap, hxs⟩
      · intro x hx
        rcases List.mem_bind.mp hx with ⟨snap, hsnap, hxs⟩
        exact List.mem_bind.mpr ⟨snap, h21 snap hsnap, hxs⟩
  · intro st L1 L2 hs h12 h21
    apply GSet.node_ext
    · rw [GSet.applyReplicates_inner, GSet.applyReplicates_inner]
    · apply GSet.sortedSet_ext (GSet.sortedSet_applyReplicates _ hs)
        (GSet.sortedSet_applyReplicates _ hs)
      intro x
      rw [GSet.applyReplicates_mem, GSet.applyReplicates_mem]
      constructor
      · rintro (h | ⟨snap, hsnap, hx⟩)
        · exact Or.inl h
        · exact Or.inr ⟨snap, h12 snap hsnap, hx⟩
      · rintro (h | ⟨snap, hsnap, hx⟩)
        · exact Or.inl h
        · exact Or.inr ⟨snap, h21 snap hsnap, hx⟩

theorem crdt_merge_order_insensitive_witness :
    (GCounter.applyReplicates (GCounter.Node.new ⟨"n1", ["n1", "n2"], 0⟩)
        [[("n2", 5)], [("n2", 3)]] =
      GCounter.applyReplicates (GCounter.Node.new ⟨"n1", ["n1", "n2"], 0⟩)
        [[("n2", 3)], [("n2", 5)], [("n2", 5)]]) ∧
    (GSet.applyReplicates (GSet.Node.new ⟨"n1", ["n1", "n2"], 0⟩)
        [[1, 2], [3]] =
      GSet.applyReplicates (GSet.Node.new ⟨"n1", ["n1", "n2"], 0⟩)
        [[3], [1, 2], [3]]) :=
  ⟨crdt_merge_order_insensitive.1 _ _ _ (by decide) (by decide) (by decide),
   crdt_merge_order_insensitive.2 _ _ _ (by decide) (by decide) (by decide)⟩

/-- C10: the counter node's `handle_replicate` never changes the entry keyed
by the node's own id — whatever value the snapshot reports for it — while
every other key present in the snapshot is merged by maximum (a missing key
receives the snapshot value, the maximum of the values seen for it) and keys
outside the snapshot are untouched. -/
theorem gcounter_replicate_own_entry_frame (st : GCounter.Node)
    (snap : List (String × Int)) (hnd : (snap.map Prod.fst).Nodup) :
    (st.handle_replicate snap).inner = st.inner ∧
    GCounter.gcLookup (st.handle_replicate snap).node_to_count st.inner.node_id =
      GCounter.gcLookup st.node_to_count st.inner.node_id ∧
    (∀ k v, k ≠ st.inner.node_id → (k, v) ∈ snap →
      GCounter.gcLookup (st.handle_replicate snap).node_to_count k =
        some (match GCounter.gcLookup st.node_to_count k with
          | none => v
          | some c => max c v)) ∧
    (∀ k, k ∉ snap.map Prod.fst →
      GCounter.gcLookup (st.handle_replicate snap).node_to_count k =
        GCounter.gcLookup st.node_to_count k) := by
  have hrepl : (st.handle_replicate snap).node_to_count =
      GCounter.mergeSnap st.inner.node_id st.node_to_count snap := rfl
  refine ⟨rfl, ?_, ?_, ?_⟩
  · rw [hrepl, GCounter.gcLookup_mergeSnap, GCounter.valsAt_self]
    rfl
  · intro k v hk hmem
    rw [hrepl, GCounter.gcLookup_mergeSnap,
      GCounter.valsAt_of_mem_nodup hnd hmem hk]
    cases GCounter.gcLookup st.node_to_count k <;> rfl
  · intro k hk
    rw [hrepl, GCounter.gcLookup_mergeSnap, GCounter.valsAt_nil_of_not_keys hk]
    rfl

theorem gcounter_replicate_own_entry_frame_witness :
    GCounter.gcLookup ((GCounter.Node.mk ⟨"n1", ["n1", "n2"], 0⟩
        [("n1", 4)]).handle_replicate [("n1", 99), ("n2", 7)]).node_to_count "n1" =
      GCounter.gcLookup [("n1", (4 : Int))] "n1" :=
  (gcounter_replicate_own_entry_frame
    (GCounter.Node.mk ⟨"n1", ["n1", "n2"], 0⟩ [("n1", 4)])
    [("n1", 99), ("n2", 7)] (by decide)).2.1

/-- C6: the counter node's `read()` value is the sum of all per-node entries
of the counter map; concretely, a fresh node that handles `add{delta: 3}` and
then `add{delta: 4}` reads `value: 7` with no replicate delivered; and a
`handle_replicate` merge never decreases any per-node entry: every key
present before the merge maps afterwards to a value at least as large. -/
theorem gcounter_read_sum_merge_monotone :
    (∀ (n : GCounter.Node) (s : String) (rid : Nat)
        (out : GCounter.Node × Lib.Message × Int),
      n.handle_read s rid = some out →
      out.2.2 = (n.node_to_count.map (fun kv => kv.2)).sum) ∧
    ((GCounter.runOps (GCounter.Node.new ⟨"n1", ["n1", "n2"], 1⟩)
        [GCounter.Op.add "c1" 7 3, GCounter.Op.add "c1" 8 4]).bind
      (fun st => (st.handle_read "c1" 9).map (fun o => o.2.2)) = some 7) ∧
    (∀ (n : GCounter.Node) (snap : List (String × Int)) (k : String) (v : Int),
      GCounter.gcLookup n.node_to_count k = some v →
      ∃ v', GCounter.gcLookup (n.handle_replicate snap).node_to_count k = some v' ∧
        v ≤ v') := by
  refine ⟨?_, by decide, ?_⟩
  · intro n s rid out h
    exact (GCounter.handle_read_spec_gc h).2.2
  · intro n snap k v hv
    have hrepl : (n.handle_replicate snap).node_to_count =
        GCounter.mergeSnap n.inner.node_id n.node_to_count snap := rfl
    rw [hrepl, GCounter.gcLookup_mergeSnap, hv]
    exact GCounter.omaxL_some_of_some _ v

theorem gcounter_read_sum_merge_monotone_witness :
    ((0 : Int) = ([("n1", (0 : Int))].map (fun kv => kv.2)).sum) ∧
    (∃ v', GCounter.gcLookup ((GCounter.Node.mk ⟨"n1", ["n1", "n2"], 0⟩
        [("n1", 4)]).handle_replicate [("n2", 9)]).node_to_count "n1" = some v' ∧
      (4 : Int) ≤ v') :=
  ⟨gcounter_read_sum_merge_monotone.1 (GCounter.Node.new ⟨"n1", ["n1"], 0⟩) "c" 3
      (GCounter.Node.mk ⟨"n1", ["n1"], 1⟩ [("n1", 0)],
        (⟨"n1", "c", "read_ok", 0, some 3⟩ : Lib.Message), (0 : Int)) (by decide),
   gcounter_read_sum_merge_monotone.2.2 (GCounter.Node.mk ⟨"n1", ["n1", "n2"], 0⟩
      [("n1", 4)]) [("n2", 9)] "n1" 4 (by decide)⟩

/-- C7 fails as stated: `handle_add` accepts any signed delta, so a single
`add{delta: -3}` delivered to a fresh counter node drives the node's own
entry to -3 — negative, and strictly below its previous value 0. -/
theorem gcounter_negative_delta_cex :
    (GCounter.runOps (GCounter.Node.new ⟨"n1", ["n1"], 0⟩)
        [GCounter.Op.add "c" 0 (-3)]).map
      (fun st => GCounter.gcLookup st.node_to_count "n1") = some (some (-3)) ∧
    ((-3 : Int) < 0) := by
  refine ⟨by decide, by decide⟩

/-- An operation whose numeric inputs are non-negative: the `add` delta, and
every entry value of a `replicate` snapshot. -/
def GCounter.Op.nonNegInput : GCounter.Op → Prop
  | GCounter.Op.add _ _ d => 0 ≤ d
  | GCounter.Op.replicate v => ∀ q ∈ v, 0 ≤ q.2
  | GCounter.Op.read _ _ => True

/-- Whether an operation is an `add`. -/
def GCounter.Op.isAddOp : GCounter.Op → Prop
  | GCounter.Op.add _ _ _ => True
  | _ => False

instance : ∀ op : GCounter.Op, Decidable op.nonNegInput := fun op =>
  match op with
  | GCounter.Op.add _ _ d => inferInstanceAs (Decidable (0 ≤ d))
  | GCounter.Op.replicate v => inferInstanceAs (Decidable (∀ q ∈ v, 0 ≤ q.2))
  | GCounter.Op.read _ _ => inferInstanceAs (Decidable True)

/-- C7 amended: provided every `add` delta and every replicated snapshot value
is non-negative, all counter-map entries stay non-negative over any run from
a state with non-negative entries; the node id is stable; the node's own
entry never decreases; and it is modified only by `handle_add` — a run with
no `add` leaves it exactly unchanged. -/
theorem gcounter_entries_nonneg_own_monotone :
    ∀ (ops : List GCounter.Op) (n n' : GCounter.Node),
      GCounter.runOps n ops = some n' →
      (∀ op ∈ ops, op.nonNegInput) →
      n'.inner.node_id = n.inner.node_id ∧
      ((∀ q ∈ n.node_to_count, 0 ≤ q.2) → ∀ q ∈ n'.node_to_count, 0 ≤ q.2) ∧
      (∀ c, GCounter.gcLookup n.node_to_count n.inner.node_id = some c →
        ∃ c', GCounter.gcLookup n'.node_to_count n'.inner.node_id = some c' ∧ c ≤ c') ∧
      ((∀ op ∈ ops, ¬ op.isAddOp) →
        GCounter.gcLookup n'.node_to_count n'.inner.node_id =
          GCounter.gcLookup n.node_to_count n.inner.node_id) := by
  intro ops
  induction ops with
  | nil =>
    intro n n' hrun _
    simp only [GCounter.runOps, Option.some_inj] at hrun
    subst hrun
    exact ⟨rfl, fun h => h, fun c hc => ⟨c, hc, le_refl c⟩, fun _ => rfl⟩
  | cons op ops ih =>
    intro n n' hrun hok
    have hopok := hok op (List.mem_cons_self op ops)
    have hrest : ∀ o ∈ ops, o.nonNegInput :=
      fun o ho => hok o (List.mem_cons_of_mem op ho)
    cases op with
    | add s i d =>
      simp only [GCounter.runOps] at hrun
      cases ha : n.handle_add s i d with
      | none =>
        rw [ha] at hrun
        cases hrun
      | some p =>
        rw [ha] at hrun
        dsimp only at hrun
        obtain ⟨c0, hc0, hcounts, hnid⟩ := GCounter.handle_add_spec ha
        obtain ⟨ih1, ih2, ih3, ih4⟩ := ih p.1 n' hrun hrest
        have hd : (0 : Int) ≤ d := hopok
        refine ⟨ih1.trans hnid, ?_, ?_, ?_⟩
        · intro h0 q hq
          refine ih2 ?_ q hq
          intro r hr
          rw [hcounts] at hr
          rcases GCounter.mem_gcInsert hr with rfl | hr
          · have h4 := h0 _ (GCounter.mem_of_gcLookup hc0)
            simp only at h4 ⊢
            omega
          · exact h0 r hr
        · intro c hc
          have hcc : c0 = c := Option.some_inj.mp (hc0.symm.trans hc)
          have hl1 : GCounter.gcLookup p.1.node_to_count p.1.inner.node_id =
              some (c0 + d) := by
            rw [hnid, hcounts, GCounter.gcLookup_gcInsert, if_pos rfl]
          obtain ⟨c', hc', hle⟩ := ih3 (c0 + d) hl1
          exact ⟨c', hc', by omega⟩
        · intro hnone
          exact absurd (show GCounter.Op.isAddOp (GCounter.Op.add s i d) from trivial)
            (hnone _ (List.mem_cons_self _ _))
    | read s i =>
      simp only [GCounter.runOps] at hrun
      cases ha : n.handle_read s i with
      | none =>
        rw [ha] at hrun
        cases hrun
      | some p =>
        rw [ha] at hrun
        dsimp only at hrun
        obtain ⟨hcounts, hnid, _⟩ := GCounter.handle_read_spec_gc ha
        obtain ⟨ih1, ih2, ih3, ih4⟩ := ih p.1 n' hrun hrest
        refine ⟨ih1.trans hnid, ?_, ?_, ?_⟩
        · intro h0 q hq
          refine ih2 ?_ q hq
          intro r hr
          rw [hcounts] at hr
          exact h0 r hr
        · intro c hc
          apply ih3
          rw [hnid, hcounts]
          exact hc
        · intro hnone
          rw [ih4 (fun o ho => hnone o (List.mem_cons_of_mem _ ho)), hnid, hcounts]
    | replicate v =>
      simp only [GCounter.runOps] at hrun
      obtain ⟨ih1, ih2, ih3, ih4⟩ := ih (n.handle_replicate v) n' hrun hrest
      have hvok : ∀ q ∈ v, (0 : Int) ≤ q.2 := hopok
      have hown : GCounter.gcLookup (n.handle_replicate v).node_to_count
          n.inner.node_id = GCounter.gcLookup n.node_to_count n.inner.node_id := by
        rw [show (n.handle_replicate v).node_to_count =
            GCounter.mergeSnap n.inner.node_id n.node_to_count v from rfl,
          GCounter.gcLookup_mergeSnap, GCounter.valsAt_self]
        rfl
      refine ⟨ih1, ?_, ?_, ?_⟩
      · intro h0 q hq
        refine ih2 ?_ q hq
        intro r hr
        rcases GCounter.mem_mergeSnap v hr with hr | ⟨qq, hqq, hv2⟩
        · exact h0 r hr
        · rw [hv2]
          exact hvok qq hqq
      · intro c hc
        apply ih3
        rw [show (n.handle_replicate v).inner.node_id = n.inner.node_id from rfl, hown]
        exact hc
      · intro hnone
        rw [ih4 (fun o ho => hnone o (List.mem_cons_of_mem _ ho))]
        exact hown

theorem gcounter_entries_nonneg_own_monotone_witness :
    (∀ q ∈ [("n1", (2 : Int)), ("n2", 5)], 0 ≤ q.2) ∧
    (∃ c', GCounter.gcLookup [("n1", (2 : Int)), ("n2", 5)] "n1" = some c' ∧
      (0 : Int) ≤ c') := by
  have h := gcounter_entries_nonneg_own_monotone
    [GCounter.Op.add "c" 0 2, GCounter.Op.replicate [("n2", 5)], GCounter.Op.read "r" 1]
    (GCounter.Node.new ⟨"n1", ["n1", "n2"], 0⟩)
    (GCounter.Node.mk ⟨"n1", ["n1", "n2"], 2⟩ [("n1", 2), ("n2", 5)])
    (by decide) (by decide)
  exact ⟨h.2.1 (by decide), h.2.2.1 0 (by decide)⟩

/-- C8 fails as stated: the response's `src` is taken from `self.node_id`,
not from the request's `dest`.  On a node whose id is "A", a request whose
`dest` field is "B" still yields a response with `src = "A"`, not the
request's `dest`. -/
theorem lib_build_response_src_cex :
    ((Lib.Node.mk "A" ["A", "B"] 0).build_response
        (Lib.Message.mk "C" "B" "echo" 7 none) "echo_ok").map (fun p => p.1.src) ≠
      some (Lib.Message.mk "C" "B" "echo" 7 none).dest := by decide

/-- C8 amended: `build_response(request, type)` returns an envelope whose
`src` is the node's own id (which equals the request's `dest` whenever the
request was addressed to this node) and whose `dest` is the request's `src`;
the body carries a freshly allocated `msg_id` (the counter value, which is
then advanced) and `in_reply_to` equal to the request's `msg_id`; it panics
(returns nothing) exactly when the node's `node_id` is empty, i.e. before
initialization. -/
theorem lib_build_response_spec (n : Lib.Node) (req : Lib.Message) (t : String) :
    (n.node_id ≠ "" →
      n.build_response req t = some
        (Lib.Message.mk n.node_id req.src t n.msg_id (some req.msg_id),
         Lib.Node.mk n.node_id n.node_ids (n.msg_id + 1))) ∧
    (n.node_id = "" → n.build_response req t = none) := by
  constructor
  · intro h
    unfold Lib.Node.build_response Lib.Node.build_message
    rw [if_neg h]
  · intro h
    unfold Lib.Node.build_response
    rw [if_pos h]

theorem lib_build_response_spec_witness :
    ((Lib.Node.mk "A" ["A", "B"] 4).build_response
        (Lib.Message.mk "C" "A" "echo" 7 none) "echo_ok" =
      some (Lib.Message.mk "A" "C" "echo_ok" 4 (some 7),
        Lib.Node.mk "A" ["A", "B"] 5)) ∧
    ((Lib.Node.mk "" ["A"] 0).build_response
        (Lib.Message.mk "C" "A" "echo" 7 none) "echo_ok" = none) :=
  ⟨(lib_build_response_spec (Lib.Node.mk "A" ["A", "B"] 4)
      (Lib.Message.mk "C" "A" "echo" 7 none) "echo_ok").1 (by decide),
   (lib_build_response_spec (Lib.Node.mk "" ["A"] 0)
      (Lib.Message.mk "C" "A" "echo" 7 none) "echo_ok").2 rfl⟩

/-- C3 fails as stated: both id counters are `u64`s that wrap at `2^64`
(`fetch_add` at `lib.rs` 33, `msg_id += 1` at `broadcast.rs` 19).  On the
node state whose counter holds `2^64 - 1` — reachable after `2^64 - 1`
calls — two further `build_message` calls return ids `2^64 - 1` and then
`0`; and the run of `2^64 + 1` `build_message` calls on a fresh node
returns id `0` both first and last, so its id sequence is not strictly
increasing and id `0` is reused. -/
theorem msg_ids_wrap_reuse_cex :
    (Lib.runIds (Lib.Node.mk "n1" ["n1"] (2 ^ 64 - 1))
        [Lib.Call.msg "a" "b" "t", Lib.Call.msg "a" "b" "t"] = [2 ^ 64 - 1, 0]) ∧
    ¬ (Lib.runIds (Lib.Node.mk "n1" ["n1"] 0)
        (List.replicate (2 ^ 64 + 1) (Lib.Call.msg "a" "b" "t"))).Pairwise (· < ·) := by
  constructor
  · decide
  · intro hp
    rw [Lib.runIds_replicate (2 ^ 64 + 1) (Lib.Node.mk "n1" ["n1"] 0) "a" "b" "t"
        (by positivity)] at hp
    rw [List.pairwise_iff_getElem] at hp
    have hlen : ((List.range (2 ^ 64 + 1)).map
        (fun i => ((Lib.Node.mk "n1" ["n1"] 0).msg_id + i) % 2 ^ 64)).length =
          2 ^ 64 + 1 := by
      rw [List.length_map, List.length_range]
    have h2 := hp 0 (2 ^ 64) (by rw [hlen]; omega) (by rw [hlen]; omega) (by positivity)
    simp only [List.getElem_map, List.getElem_range, Nat.zero_add, Nat.add_zero,
      Nat.zero_mod, Nat.mod_self] at h2
    exact absurd h2 (lt_irrefl 0)

/-- C3 under the real `u64` counters (amended): ids are strictly increasing —
hence never reused — for exactly the call sequences that cannot overflow the
counter: whenever the node's current counter value plus the number of calls
is at most `2^64` (in particular for any sequence of at most `2^64` calls on
a fresh node), each returned `msg_id` is strictly greater than every
`msg_id` returned earlier, both for the shared substrate node (`lib.rs`,
atomic counter) and for the broadcast node's `MessageBuilder`
(`broadcast.rs`). -/
theorem msg_ids_strictly_increasing :
    (∀ (n : Lib.Node) (cs : List Lib.Call) (ms : List Lib.Message) (n' : Lib.Node),
      Lib.run n cs = some (ms, n') →
      n.msg_id + cs.length ≤ 2 ^ 64 →
      (ms.map Lib.Message.msg_id).Pairwise (· < ·)) ∧
    (∀ (n : Broadcast.Node) (cs : List Broadcast.BCall),
      n.msg_builder.msg_id + cs.length ≤ 2 ^ 64 →
      ((Broadcast.nodeCalls n cs).1.map Broadcast.Message.msg_id).Pairwise (· < ·)) :=
  ⟨fun _ _ _ _ h hb => (Lib.run_ids h hb).1,
   fun n cs hb => (Broadcast.nodeCalls_ids cs n hb).1⟩

theorem msg_ids_strictly_increasing_witness :
    (([Lib.Message.mk "a" "b" "echo" 0 none,
       Lib.Message.mk "n1" "c" "r" 1 (some 5)].map Lib.Message.msg_id).Pairwise
      (· < ·)) :=
  msg_ids_strictly_increasing.1 (Lib.Node.mk "n1" ["n1"] 0)
    [Lib.Call.msg "a" "b" "echo",
     Lib.Call.resp (Lib.Message.mk "c" "n1" "q" 5 none) "r"]
    [Lib.Message.mk "a" "b" "echo" 0 none, Lib.Message.mk "n1" "c" "r" 1 (some 5)]
    (Lib.Node.mk "n1" ["n1"] 2) (by decide) (by decide)

/-- C1: deliver any nonempty sequence of `broadcast` requests all carrying the
same value `v` (any senders, any request ids, duplicates in any order) to one
node: afterwards the seen set `messages` contains `v` exactly once, and any
further delivery of `v` changes neither `messages` nor `awaiting_reply` and
emits only the `broadcast_ok` response — no forwarded broadcast. -/
theorem broadcast_dedup (n : Broadcast.Node) (v : Nat) (ds : List (String × Nat))
    (hs : GSet.SortedSet n.messages) (hne : ds ≠ []) :
    ((Broadcast.applyBroadcasts v n ds).messages.count v = 1) ∧
    (∀ s rid,
      ((Broadcast.applyBroadcasts v n ds).handle_broadcast s rid v).1.messages =
        (Broadcast.applyBroadcasts v n ds).messages ∧
      ((Broadcast.applyBroadcasts v n ds).handle_broadcast s rid v).1.awaiting_reply =
        (Broadcast.applyBroadcasts v n ds).awaiting_reply ∧
      ((Broadcast.applyBroadcasts v n ds).handle_broadcast s rid v).2 =
        [Broadcast.Event.send
          (Broadcast.ackMsg (Broadcast.applyBroadcasts v n ds) s rid)]) := by
  obtain ⟨d, ds', rfl⟩ : ∃ d ds', ds = d :: ds' := by
    cases ds with
    | nil => exact absurd rfl hne
    | cons d t => exact ⟨d, t, rfl⟩
  have hmem : v ∈ (Broadcast.applyBroadcasts v n (d :: ds')).messages :=
    Broadcast.applyBroadcasts_mem v d ds' n
  have hsort := Broadcast.applyBroadcasts_sorted v (d :: ds') hs
  constructor
  · have hnd : (Broadcast.applyBroadcasts v n (d :: ds')).messages.Nodup :=
      hsort.imp (fun h => Nat.ne_of_lt h)
    exact List.count_eq_one_of_mem hnd hmem
  · intro s rid
    rw [Broadcast.handle_broadcast_old hsort hmem]
    exact ⟨rfl, rfl, rfl⟩

theorem broadcast_dedup_witness :
    ((Broadcast.applyBroadcasts 9 (Broadcast.Node.mk "n1" ["n2"] [] ⟨0⟩ [])
        [("c", 5)]).messages.count 9 = 1) ∧
    (((Broadcast.applyBroadcasts 9 (Broadcast.Node.mk "n1" ["n2"] [] ⟨0⟩ [])
        [("c", 5)]).handle_broadcast "c2" 6 9).1.awaiting_reply =
      (Broadcast.applyBroadcasts 9 (Broadcast.Node.mk "n1" ["n2"] [] ⟨0⟩ [])
        [("c", 5)]).awaiting_reply) := by
  have h := broadcast_dedup (Broadcast.Node.mk "n1" ["n2"] [] ⟨0⟩ []) 9 [("c", 5)]
    (by decide) (by decide)
  exact ⟨h.1, (h.2 "c2" 6).2.1⟩

/-- C5: when `broadcast{message := v}` arrives from `s` and `v` is newly seen,
the node first transmits `broadcast_ok` back to `s` and then, for every
neighbor other than `s` and for no other destination, builds a fresh
`broadcast` message carrying `v` with a freshly allocated id (ids counting up
from one past the response's id), records it in `awaiting_reply` keyed by that
id before transmitting it (`fanEvents` interleaves exactly one insertion
immediately before each transmission), and transmits it; the recorded entries
are retrievable by their ids afterwards and all other keys are untouched. -/
theorem broadcast_forwarding (n : Broadcast.Node) (s : String) (rid v : Nat)
    (hnew : v ∉ n.messages) :
    ((n.handle_broadcast s rid v).2 =
      Broadcast.Event.send (Broadcast.ackMsg n s rid) ::
        Broadcast.fanEvents n.node_id v (n.msg_builder.msg_id + 1)
          (n.neighbors.filter (fun x => x != s))) ∧
    ((n.handle_broadcast s rid v).1.messages = GSet.sInsert v n.messages) ∧
    ((n.handle_broadcast s rid v).1.node_id = n.node_id) ∧
    ((n.handle_broadcast s rid v).1.neighbors = n.neighbors) ∧
    ((n.handle_broadcast s rid v).1.msg_builder.msg_id =
      n.msg_builder.msg_id + 1 + (n.neighbors.filter (fun x => x != s)).length) ∧
    (∀ i (h : i < (n.neighbors.filter (fun x => x != s)).length),
      Broadcast.aLookup (n.handle_broadcast s rid v).1.awaiting_reply
          (n.msg_builder.msg_id + 1 + i) =
        some (Broadcast.fwdMsg n.node_id v (n.msg_builder.msg_id + 1 + i)
          ((n.neighbors.filter (fun x => x != s)).get ⟨i, h⟩))) ∧
    (∀ k, (∀ i, i < (n.neighbors.filter (fun x => x != s)).length →
        k ≠ n.msg_builder.msg_id + 1 + i) →
      Broadcast.aLookup (n.handle_broadcast s rid v).1.awaiting_reply k =
        Broadcast.aLookup n.awaiting_reply k) := by
  have hev := Broadcast.handle_broadcast_events n s rid v
  rw [if_neg hnew] at hev
  have hfe := Broadcast.handle_broadcast_fields n s rid v
  refine ⟨hev, hfe.1, hfe.2.1, hfe.2.2, ?_, ?_, ?_⟩
  · rw [Broadcast.handle_broadcast_new_eq hnew]
    have h4 := (Broadcast.fanFold_node_id v (n.neighbors.filter (fun x => x != s))
      (Broadcast.postAck n v, [Broadcast.Event.send (Broadcast.ackMsg n s rid)])).2.2.2
    rw [h4]
    rfl
  · intro i hilt
    rw [Broadcast.handle_broadcast_new_eq hnew]
    exact Broadcast.fanFold_lookup_new v (n.neighbors.filter (fun x => x != s))
      (Broadcast.postAck n v) [Broadcast.Event.send (Broadcast.ackMsg n s rid)] i hilt
  · intro k hk
    rw [Broadcast.handle_broadcast_new_eq hnew]
    refine Broadcast.fanFold_lookup_old v _ _ _ k ?_
    intro i hi heq
    exact hk i hi heq

theorem broadcast_forwarding_witness :
    (((Broadcast.Node.mk "A" ["B"] [] ⟨0⟩ []).handle_broadcast "c0" 3 5).2 =
      Broadcast.Event.send
          (Broadcast.ackMsg (Broadcast.Node.mk "A" ["B"] [] ⟨0⟩ []) "c0" 3) ::
        Broadcast.fanEvents "A" 5 1 (["B"].filter (fun x => x != "c0"))) ∧
    (Broadcast.aLookup ((Broadcast.Node.mk "A" ["B"] [] ⟨0⟩ []).handle_broadcast
        "c0" 3 5).1.awaiting_reply 1 =
      some (Broadcast.fwdMsg "A" 5 1
        ((["B"].filter (fun x => x != "c0")).get ⟨0, by decide⟩))) := by
  have h := broadcast_forwarding (Broadcast.Node.mk "A" ["B"] [] ⟨0⟩ []) "c0" 3 5
    (by decide)
  exact ⟨h.1, h.2.2.2.2.2.1 0 (by decide)⟩

/-- C4: a `broadcast_ok` with `in_reply_to = m` removes the `awaiting_reply`
entry for `m` when present (touching nothing else), and is a harmless no-op —
state unchanged, no panic — when `m` is absent; no other handler removes an
entry (`handle_broadcast` preserves every existing entry on a well-formed
state, `handle_read` and `handle_topology` leave the map untouched); every
forwarded `broadcast` that `handle_broadcast` transmits is retrievable from
`awaiting_reply` under its message id afterwards; and well-formedness of the
map (all keys below the id counter) is preserved by every handler. -/
theorem broadcast_ok_ack_handling :
    (∀ (n : Broadcast.Node) (m : Nat) (w : Broadcast.Message),
      Broadcast.aLookup n.awaiting_reply m = some w →
      Broadcast.aLookup (n.handle_broadcast_ok m).awaiting_reply m = none ∧
      (∀ k, k ≠ m → Broadcast.aLookup (n.handle_broadcast_ok m).awaiting_reply k =
        Broadcast.aLookup n.awaiting_reply k) ∧
      (n.handle_broadcast_ok m).messages = n.messages ∧
      (n.handle_broadcast_ok m).node_id = n.node_id ∧
      (n.handle_broadcast_ok m).neighbors = n.neighbors ∧
      (n.handle_broadcast_ok m).msg_builder = n.msg_builder) ∧
    (∀ (n : Broadcast.Node) (m : Nat),
      Broadcast.aLookup n.awaiting_reply m = none → n.handle_broadcast_ok m = n) ∧
    (∀ (n : Broadcast.Node) (s : String) (rid v k : Nat) (w : Broadcast.Message),
      Broadcast.WfAwait n → Broadcast.aLookup n.awaiting_reply k = some w →
      Broadcast.aLookup (n.handle_broadcast s rid v).1.awaiting_reply k = some w) ∧
    (∀ (n : Broadcast.Node) (s : String) (rid : Nat),
      (n.handle_read s rid).1.awaiting_reply = n.awaiting_reply) ∧
    (∀ (n : Broadcast.Node) (s : String) (rid : Nat)
        (topo : List (String × List String))
        (out : Broadcast.Node × List Broadcast.Event),
      n.handle_topology s rid topo = some out →
      out.1.awaiting_reply = n.awaiting_reply) ∧
    (∀ (n : Broadcast.Node) (s : String) (rid v : Nat) (m : Broadcast.Message),
      Broadcast.Event.send m ∈ (n.handle_broadcast s rid v).2 → m.typ = "broadcast" →
      Broadcast.aLookup (n.handle_broadcast s rid v).1.awaiting_reply m.msg_id =
        some m) ∧
    (∀ (n : Broadcast.Node), Broadcast.WfAwait n →
      (∀ (s : String) (rid v : Nat),
        Broadcast.WfAwait (n.handle_broadcast s rid v).1) ∧
      (∀ m : Nat, Broadcast.WfAwait (n.handle_broadcast_ok m)) ∧
      (∀ (s : String) (rid : Nat), Broadcast.WfAwait (n.handle_read s rid).1) ∧
      (∀ (s : String) (rid : Nat) (topo : List (String × List String))
          (out : Broadcast.Node × List Broadcast.Event),
        n.handle_topology s rid topo = some out → Broadcast.WfAwait out.1)) := by
  refine ⟨?_, ?_, ?_, ?_, ?_, ?_, ?_⟩
  · intro n m w h
    exact Broadcast.handle_broadcast_ok_removes h
  · intro n m h
    exact Broadcast.handle_broadcast_ok_noop h
  · intro n s rid v k w hwf hk
    exact Broadcast.handle_broadcast_await_frame hwf hk
  · intro n s rid
    exact (Broadcast.handle_read_state n s rid).1
  · intro n s rid topo out h
    exact (Broadcast.handle_topology_state h).1
  · intro n s rid v m hm ht
    exact Broadcast.handle_broadcast_send_tracked hm ht
  · intro n hwf
    exact ⟨fun s rid v => Broadcast.wfAwait_handle_broadcast hwf s rid v,
      fun m => Broadcast.wfAwait_handle_broadcast_ok hwf m,
      fun s rid => Broadcast.wfAwait_handle_read hwf s rid,
      fun s rid topo out h => Broadcast.wfAwait_handle_topology hwf h⟩

theorem broadcast_ok_ack_handling_witness :
    (Broadcast.aLookup ((Broadcast.Node.mk "A" ["B"] [5] ⟨4⟩
        [(3, Broadcast.fwdMsg "A" 5 3 "B")]).handle_broadcast_ok 3).awaiting_reply 3 =
      none) ∧
    ((Broadcast.Node.mk "A" ["B"] [5] ⟨4⟩
        [(3, Broadcast.fwdMsg "A" 5 3 "B")]).handle_broadcast_ok 7 =
      Broadcast.Node.mk "A" ["B"] [5] ⟨4⟩ [(3, Broadcast.fwdMsg "A" 5 3 "B")]) := by
  exact ⟨(broadcast_ok_ack_handling.1 _ 3 (Broadcast.fwdMsg "A" 5 3 "B") (by decide)).1,
    broadcast_ok_ack_handling.2.1 _ 7 (by decide)⟩
